import Mathlib

/-!
Verification development for the QIF codec and the analysis engine of the
AIMasterFinAgent repository (src/quicken.rs, src/analysis.rs, src/data.rs).

Modelling conventions:
- Rust strings are modelled as lists of characters (abbrev Str); the
  importer works line by line exactly as the source does.
- rust_decimal::Decimal is modelled by the structure Dec below: a negative
  sign flag, a natural mantissa and a scale, mirroring the crate in-memory
  representation (96-bit mantissa, scale 0..=28, separate sign bit; negation
  flips the sign bit even on zero, and display prints the sign bit).
  Numeric comparison and the numeric value go through Dec.toRat.
- chrono DateTime(Utc) is modelled by civil fields (year, month, day) plus
  seconds within the day; the wall clock Utc::now() is passed explicitly as
  a parameter wherever the source calls it.
- Uuid::new_v4 is modelled by a counter threaded through parsing; all that
  the source relies on is freshness (distinctness) of the generated ids.
- Monetary arithmetic in the analysis engine is modelled in the exact
  rationals: rust_decimal addition, negation and comparison are exact, and
  its division rounds only beyond 28 significant digits, which no claim in
  scope reaches.
-/

namespace FinAgent

abbrev Str := List Char

/-- Whitespace test used by str::trim (the source lines contain only ASCII
whitespace at the relevant positions). -/
def isWSChar (c : Char) : Bool := c = ' ' || c = '\t' || c = '\r' || c = '\n'

/-- Model of str::trim on a single line. -/
def trim (s : Str) : Str := ((s.dropWhile isWSChar).reverse.dropWhile isWSChar).reverse

/-- Model of str::starts_with: startsTok tok line. -/
def startsTok : Str → Str → Bool
  | [], _ => true
  | _ :: _, [] => false
  | p :: ps, c :: cs => p = c && startsTok ps cs

/-- Model of str::to_lowercase at the ASCII subset the importer feeds it. -/
def toLowerStr (s : Str) : Str := s.map Char.toLower

/-- Split a character list at every newline (the first stage of str::lines). -/
def splitNL : Str → List Str
  | [] => [[]]
  | '\n' :: rest => [] :: splitNL rest
  | c :: rest =>
    match splitNL rest with
    | l :: ls => (c :: l) :: ls
    | [] => [[c]]

/-- Drop the final empty piece produced by a trailing newline, as
str::lines does (also turning the empty input into no lines). -/
def dropLastEmpty (ls : List Str) : List Str :=
  match ls.reverse with
  | [] :: rs => rs.reverse
  | _ => ls

/-- Strip at most one trailing carriage return from a line, as str::lines does. -/
def stripCR (l : Str) : Str :=
  match l.reverse with
  | '\r' :: rs => rs.reverse
  | _ => l

/-- Model of str::lines, used by QifImporter::parse_qif_content. -/
def linesOf (s : Str) : List Str := (dropLastEmpty (splitNL s)).map stripCR

/-- Join lines back into raw text; every push_str chunk of the exporter ends
with a newline, so the exported text is exactly this shape. -/
def joinNL (ls : List Str) : Str := ls.flatMap (fun l => l ++ ['\n'])

/-! Decimal digit helpers shared by the Decimal model and the date codec. -/

def digitChar (d : Nat) : Char := Char.ofNat (48 + d)

def digitVal (c : Char) : Nat := c.toNat - 48

/-- Numeric value of a big-endian run of digit characters. -/
def natFromDigitChars (s : Str) : Nat := s.foldl (fun acc c => acc * 10 + digitVal c) 0

def allDigits (s : Str) : Bool := s.all (·.isDigit)

/-- Little-endian digits padded with high zeros to width at least w. -/
def padDigitsTo (w : Nat) (ds : List Nat) : List Nat := ds ++ List.replicate (w - ds.length) 0

/-- Little-endian base-ten digits computed with a structural fuel so that
concrete values reduce inside the kernel. -/
def digitsFuel : Nat → Nat → List Nat
  | 0, _ => []
  | fuel + 1, n => if n = 0 then [] else n % 10 :: digitsFuel fuel (n / 10)

def natDigits (n : Nat) : List Nat := digitsFuel n n

theorem digitsFuel_eq (fuel n : Nat) (h : n ≤ fuel) : digitsFuel fuel n = Nat.digits 10 n := by
  induction fuel generalizing n with
  | zero =>
    have : n = 0 := by omega
    subst this
    simp [digitsFuel]
  | succ fuel ih =>
    by_cases h0 : n = 0
    · subst h0; simp [digitsFuel]
    · rw [digitsFuel, if_neg h0, Nat.digits_def' (by norm_num) (Nat.pos_of_ne_zero h0),
        ih (n / 10) (by omega)]

theorem natDigits_eq (n : Nat) : natDigits n = Nat.digits 10 n := digitsFuel_eq n n le_rfl

/-- Big-endian decimal digit characters of n, zero padded to width at least w. -/
def natChars (w : Nat) (n : Nat) : Str := ((padDigitsTo w (natDigits n)).map digitChar).reverse

theorem digitVal_digitChar {d : Nat} (h : d < 10) : digitVal (digitChar d) = d := by
  interval_cases d <;> decide

theorem isDigit_digitChar {d : Nat} (h : d < 10) : (digitChar d).isDigit = true := by
  interval_cases d <;> decide

theorem natFromDigitChars_append (a b : Str) :
    natFromDigitChars (a ++ b) =
      b.foldl (fun acc c => acc * 10 + digitVal c) (natFromDigitChars a) := by
  simp [natFromDigitChars, List.foldl_append]

/-- Reading back the big-endian character rendering of little-endian digits. -/
theorem natFromDigitChars_rev_map (ds : List Nat) (h : ∀ d ∈ ds, d < 10) :
    natFromDigitChars ((ds.map digitChar).reverse) = Nat.ofDigits 10 ds := by
  induction ds with
  | nil => simp [natFromDigitChars]
  | cons d ds ih =>
    have hd : d < 10 := h d (by simp)
    have hds : ∀ x ∈ ds, x < 10 := fun x hx => h x (by simp [hx])
    simp only [List.map_cons, List.reverse_cons]
    rw [natFromDigitChars_append, ih hds]
    simp [Nat.ofDigits_cons, digitVal_digitChar hd]
    ring

theorem ofDigits_replicate_zero (k : Nat) : Nat.ofDigits 10 (List.replicate k 0) = 0 := by
  induction k with
  | zero => simp [Nat.ofDigits]
  | succ k ih => simp [List.replicate_succ, Nat.ofDigits_cons, ih]

theorem ofDigits_padDigitsTo (w : Nat) (ds : List Nat) :
    Nat.ofDigits 10 (padDigitsTo w ds) = Nat.ofDigits 10 ds := by
  simp [padDigitsTo, Nat.ofDigits_append, ofDigits_replicate_zero]

theorem padDigitsTo_lt (w : Nat) (ds : List Nat) (h : ∀ d ∈ ds, d < 10) :
    ∀ d ∈ padDigitsTo w ds, d < 10 := by
  intro d hd
  rcases List.mem_append.mp hd with h1 | h2
  · exact h d h1
  · have := List.eq_of_mem_replicate h2
    omega

theorem digits_lt_ten (n : Nat) : ∀ d ∈ natDigits n, d < 10 := by
  rw [natDigits_eq]
  exact fun _ hd => Nat.digits_lt_base (by norm_num) hd

theorem natFromDigitChars_natChars (w n : Nat) : natFromDigitChars (natChars w n) = n := by
  rw [natChars, natFromDigitChars_rev_map _ (padDigitsTo_lt w _ (digits_lt_ten n)),
    ofDigits_padDigitsTo, natDigits_eq, Nat.ofDigits_digits]

theorem allDigits_natChars (w n : Nat) : allDigits (natChars w n) = true := by
  simp only [natChars, allDigits, List.all_eq_true, List.mem_reverse, List.mem_map]
  rintro c ⟨d, hd, rfl⟩
  exact isDigit_digitChar (padDigitsTo_lt w _ (digits_lt_ten n) d hd)

theorem natChars_length (w n : Nat) :
    (natChars w n).length = max (natDigits n).length w := by
  simp [natChars, padDigitsTo]
  omega

theorem natChars_length_ge (w n : Nat) : w ≤ (natChars w n).length := by
  rw [natChars_length]; omega

/-- Character-level facts about rendered digit characters: never a sign, a
dot, whitespace or a newline. -/
theorem digitChar_facts {d : Nat} (h : d < 10) :
    digitChar d ≠ '-' ∧ digitChar d ≠ '+' ∧ digitChar d ≠ '.' ∧
      isWSChar (digitChar d) = false ∧ digitChar d ≠ '\n' ∧ digitChar d ≠ '/' := by
  interval_cases d <;> decide

/-- Every character of a natChars rendering is the image of a digit below ten. -/
theorem natChars_mem (w n : Nat) :
    ∀ c ∈ natChars w n, ∃ d, d < 10 ∧ c = digitChar d := by
  intro c hc
  simp only [natChars, List.mem_reverse, List.mem_map] at hc
  obtain ⟨d, hd, rfl⟩ := hc
  exact ⟨d, padDigitsTo_lt w _ (digits_lt_ten n) d hd, rfl⟩

/-! Model of rust_decimal::Decimal: sign bit, mantissa magnitude, scale.
The crate keeps these three pieces separately; negation flips the sign bit
even on zero (so negative zero exists and displays with a minus sign), while
numeric comparison treats negative zero as zero. -/

structure Dec where
  sign : Bool
  m : Nat
  s : Nat
  deriving DecidableEq, Repr

/-- Decimal::ZERO. -/
def Dec.zero : Dec := ⟨false, 0, 0⟩

/-- Numeric value of a Decimal, used for comparisons and for the analysis
engine arithmetic. -/
def Dec.toRat (d : Dec) : ℚ := (if d.sign then -(d.m : ℚ) else (d.m : ℚ)) / 10 ^ d.s

/-- The comparison amount >= Decimal::ZERO of the importer (numeric, so
negative zero counts as non-negative). -/
def Dec.isNonneg (d : Dec) : Bool := !d.sign || d.m == 0

/-- Decimal::abs clears the sign bit. -/
def Dec.abs (d : Dec) : Dec := ⟨false, d.m, d.s⟩

/-- Decimal negation flips the sign bit, also on zero. -/
def Dec.neg (d : Dec) : Dec := ⟨!d.sign, d.m, d.s⟩

/-- Split a run of characters at its only dot; more than one dot fails. -/
def splitDot : Str → Option (Str × Str)
  | [] => some ([], [])
  | c :: rest =>
    if c = '.' then (if rest.contains '.' then none else some ([], rest))
    else (splitDot rest).map (fun p => (c :: p.1, p.2))

/-- Model of str::parse::<Decimal>() on the fragment the source exercises:
an optional single leading sign, digits with at most one decimal point.
The capacity checks mirror the crate limits (96-bit mantissa, scale at most
28); inputs past those limits are rejected here, where the crate would round
excess fractional digits, a region no claim reaches.  Underscore separators
and scientific forms accepted by the crate are likewise outside every
behavior in scope and are rejected. -/
def Dec.fromChars? (s : Str) : Option Dec :=
  let sign : Bool := s.head? = some '-'
  let t := if s.head? = some '-' ∨ s.head? = some '+' then s.tail else s
  match splitDot t with
  | none => none
  | some (ip, fp) =>
    if ip ++ fp = [] then none
    else if allDigits (ip ++ fp) then
      let m := natFromDigitChars (ip ++ fp)
      if fp.length ≤ 28 ∧ m < 2 ^ 96 then some ⟨sign, m, fp.length⟩ else none
    else none

/-- Model of Display for Decimal: the mantissa digits with the decimal point
inserted at the scale, trailing zeros preserved, sign bit printed as a
leading minus (also on negative zero). -/
def Dec.render (d : Dec) : Str :=
  let cs := natChars (d.s + 1) d.m
  let ip := cs.take (cs.length - d.s)
  let fp := cs.drop (cs.length - d.s)
  (if d.sign then ['-'] else []) ++ ip ++ (if d.s = 0 then [] else '.' :: fp)

theorem splitDot_no_dot (s : Str) (h : ¬ '.' ∈ s) : splitDot s = some (s, []) := by
  induction s with
  | nil => rfl
  | cons c rest ih =>
    have hc : c ≠ '.' := fun hc => h (by simp [hc])
    have hr : ¬ '.' ∈ rest := fun hr => h (by simp [hr])
    simp [splitDot, hc, ih hr]

theorem splitDot_mid (a b : Str) (ha : ¬ '.' ∈ a) (hb : ¬ '.' ∈ b) :
    splitDot (a ++ '.' :: b) = some (a, b) := by
  induction a with
  | nil =>
    have : b.contains '.' = false := by
      simpa using hb
    simp [splitDot, this]
    exact hb
  | cons c rest ih =>
    have hc : c ≠ '.' := fun hc => ha (by simp [hc])
    have hr : ¬ '.' ∈ rest := fun hr => ha (by simp [hr])
    simp [splitDot, hc, ih hr]

theorem allDigits_of_images {s : Str} (h : ∀ c ∈ s, ∃ dv, dv < 10 ∧ c = digitChar dv) :
    allDigits s = true := by
  simp only [allDigits, List.all_eq_true]
  intro c hc
  obtain ⟨dv, hdv, rfl⟩ := h c hc
  exact isDigit_digitChar hdv

theorem no_dot_of_images {s : Str} (h : ∀ c ∈ s, ∃ dv, dv < 10 ∧ c = digitChar dv) :
    ¬ '.' ∈ s := by
  intro hin
  obtain ⟨dv, hdv, heq⟩ := h _ hin
  exact (digitChar_facts hdv).2.2.1 heq.symm

/-- Parsing the canonical digit rendering: an optional minus, a non-empty
integer part, and an optional dot-separated fraction part read back exactly. -/
theorem Dec.fromChars_core (sgn : Bool) (ip fp : Str) (hipne : ip ≠ [])
    (hipd : ∀ c ∈ ip, ∃ dv, dv < 10 ∧ c = digitChar dv)
    (hfpd : ∀ c ∈ fp, ∃ dv, dv < 10 ∧ c = digitChar dv)
    (hs28 : fp.length ≤ 28) (hm96 : natFromDigitChars (ip ++ fp) < 2 ^ 96) :
    Dec.fromChars? ((if sgn then ['-'] else []) ++ ip ++ (if fp = [] then [] else '.' :: fp)) =
      some ⟨sgn, natFromDigitChars (ip ++ fp), fp.length⟩ := by
  obtain ⟨c0, ip', rfl⟩ : ∃ c0 ip', ip = c0 :: ip' := by
    rcases ip with _ | ⟨c0, ip'⟩
    · exact absurd rfl hipne
    · exact ⟨c0, ip', rfl⟩
  obtain ⟨dv0, hdv0, rfl⟩ := hipd c0 (by simp)
  have hsplit : splitDot ((digitChar dv0 :: ip') ++ (if fp = [] then [] else '.' :: fp)) =
      some (digitChar dv0 :: ip', fp) := by
    by_cases hfp : fp = []
    · subst hfp
      simpa using splitDot_no_dot _ (no_dot_of_images hipd)
    · rw [if_neg hfp]
      exact splitDot_mid _ _ (no_dot_of_images hipd) (no_dot_of_images hfpd)
  have hall : allDigits ((digitChar dv0 :: ip') ++ fp) = true :=
    allDigits_of_images (by
      intro c hc
      rcases List.mem_append.mp hc with h1 | h2
      · exact hipd c h1
      · exact hfpd c h2)
  have hne : (digitChar dv0 :: ip') ++ fp ≠ [] := by simp
  rw [List.cons_append] at hsplit
  rw [List.cons_append] at hall
  have hm96x : natFromDigitChars (digitChar dv0 :: (ip' ++ fp)) < 79228162514264337593543950336 := by
    simpa using hm96
  cases sgn with
  | true =>
    simp [Dec.fromChars?]
    rw [hsplit]
    simp [hall, hs28, hm96x]
  | false =>
    have hne1 : digitChar dv0 ≠ '-' := (digitChar_facts hdv0).1
    have hne2 : digitChar dv0 ≠ '+' := (digitChar_facts hdv0).2.1
    simp [Dec.fromChars?, hne1, hne2]
    rw [hsplit]
    simp [hall, hs28, hm96x]

/-- Display then parse is the identity on every in-capacity Decimal: the
textual amount emitted by the exporter reads back to the same sign bit,
mantissa and scale. -/
theorem Dec.fromChars_render (d : Dec) (hs : d.s ≤ 28) (hm : d.m < 2 ^ 96) :
    Dec.fromChars? (Dec.render d) = some d := by
  obtain ⟨sgn, m, s⟩ := d
  simp only at hs hm
  have hL : s + 1 ≤ (natChars (s + 1) m).length := natChars_length_ge _ _
  have hipfp : (natChars (s + 1) m).take ((natChars (s + 1) m).length - s) ++
      (natChars (s + 1) m).drop ((natChars (s + 1) m).length - s) = natChars (s + 1) m :=
    List.take_append_drop _ _
  have hfplen : ((natChars (s + 1) m).drop ((natChars (s + 1) m).length - s)).length = s := by
    rw [List.length_drop]; omega
  have hmem := natChars_mem (s + 1) m
  have hipd : ∀ c ∈ (natChars (s + 1) m).take ((natChars (s + 1) m).length - s),
      ∃ dv, dv < 10 ∧ c = digitChar dv :=
    fun c hc => hmem c (List.take_subset _ _ hc)
  have hfpd : ∀ c ∈ (natChars (s + 1) m).drop ((natChars (s + 1) m).length - s),
      ∃ dv, dv < 10 ∧ c = digitChar dv :=
    fun c hc => hmem c (List.drop_subset _ _ hc)
  have hipne : (natChars (s + 1) m).take ((natChars (s + 1) m).length - s) ≠ [] := by
    intro h
    have := congrArg List.length h
    rw [List.length_take] at this
    simp at this
    omega
  have hrender : Dec.render ⟨sgn, m, s⟩ =
      (if sgn then ['-'] else []) ++
        (natChars (s + 1) m).take ((natChars (s + 1) m).length - s) ++
        (if (natChars (s + 1) m).drop ((natChars (s + 1) m).length - s) = []
          then [] else '.' :: (natChars (s + 1) m).drop ((natChars (s + 1) m).length - s)) := by
    simp only [Dec.render]
    by_cases h0 : s = 0
    · subst h0
      have : (natChars (0 + 1) m).drop ((natChars (0 + 1) m).length - 0) = [] := by
        simp
      simp [this]
    · have : (natChars (s + 1) m).drop ((natChars (s + 1) m).length - s) ≠ [] := by
        intro h
        have := congrArg List.length h
        rw [hfplen] at this
        simp at this
        exact h0 this
      simp [h0, this]
  rw [hrender,
    Dec.fromChars_core sgn _ _ hipne hipd hfpd (by rw [hfplen]; exact hs)
      (by rw [hipfp, natFromDigitChars_natChars]; exact hm)]
  rw [hipfp]
  rw [natFromDigitChars_natChars, hfplen]

/-! Model of chrono dates.  A DateTime(Utc) is kept as its civil fields plus
the seconds within the day; the importer only ever constructs midnight times
or passes the wall clock through. -/

structure DateTime where
  year : Int
  month : Nat
  day : Nat
  secs : Nat
  deriving DecidableEq, Repr

/-- Proleptic Gregorian leap-year rule, as NaiveDate uses. -/
def isLeapYear (y : Int) : Bool := (y % 4 = 0 && y % 100 ≠ 0) || y % 400 = 0

def daysInMonth (y : Int) (m : Nat) : Nat :=
  if m = 2 then (if isLeapYear y then 29 else 28)
  else if m = 4 ∨ m = 6 ∨ m = 9 ∨ m = 11 then 30
  else 31

/-- Calendar validity as enforced by NaiveDate::parse_from_str. -/
def validYMD (y : Int) (m d : Nat) : Bool :=
  1 ≤ m && m ≤ 12 && 1 ≤ d && d ≤ daysInMonth y m

/-- NaiveDate construction plus and_hms_opt(0, 0, 0): midnight of a valid date. -/
def mkMidnight (y : Int) (m d : Nat) : Option DateTime :=
  if validYMD y m d then some ⟨y, m, d, 0⟩ else none

/-- Generic split of a character run at a separator character. -/
def splitChar (sep : Char) : Str → List Str
  | [] => [[]]
  | c :: rest =>
    if c = sep then [] :: splitChar sep rest
    else
      match splitChar sep rest with
      | l :: ls => (c :: l) :: ls
      | [] => [[c]]

/-- A numeric field of a chrono format string: one to maxW digits. -/
def numField (maxW : Nat) (s : Str) : Option Nat :=
  if s ≠ [] ∧ s.length ≤ maxW ∧ allDigits s then some (natFromDigitChars s) else none

/-- One date format of shape month sep day sep four-digit-year. -/
def tryMDY4 (sep : Char) (s : Str) : Option DateTime :=
  match splitChar sep s with
  | [a, b, c] =>
    match numField 2 a, numField 2 b, numField 4 c with
    | some m, some d, some y => mkMidnight (y : Int) m d
    | _, _, _ => none
  | _ => none

/-- One date format of shape month sep day sep two-digit-year; chrono maps
values 0 to 68 into the two-thousands and 69 to 99 into the
nineteen-hundreds. -/
def tryMDY2 (sep : Char) (s : Str) : Option DateTime :=
  match splitChar sep s with
  | [a, b, c] =>
    match numField 2 a, numField 2 b, numField 2 c with
    | some m, some d, some y2 =>
      mkMidnight ((if y2 ≤ 68 then 2000 + y2 else 1900 + y2 : Nat) : Int) m d
    | _, _, _ => none
  | _ => none

/-- The ISO shape four-digit-year dash month dash day. -/
def tryYMD (sep : Char) (s : Str) : Option DateTime :=
  match splitChar sep s with
  | [a, b, c] =>
    match numField 4 a, numField 2 b, numField 2 c with
    | some y, some m, some d => mkMidnight (y : Int) m d
    | _, _, _ => none
  | _ => none

/-- The apostrophe character that parse_qif_date strips. -/
def apoChar : Char := Char.ofNat 39

/-- Model of QifImporter::parse_qif_date: trim, strip apostrophes, then try
the fixed ordered format list (slash and hyphen month/day/year with four or
two digit years, then ISO year-month-day); the first match wins, none is an
error. -/
def parse_qif_date (s : Str) : Option DateTime :=
  let cleaned := (trim s).filter (fun c => c ≠ apoChar)
  (tryMDY4 '/' cleaned).or ((tryMDY2 '/' cleaned).or
    ((tryMDY4 '-' cleaned).or ((tryMDY2 '-' cleaned).or (tryYMD '-' cleaned))))

/-- Big-endian digit characters of an integer, minus sign for negatives,
padded to width w. -/
def intChars (w : Nat) (y : Int) : Str :=
  if y < 0 then '-' :: natChars w (-y).toNat else natChars w y.toNat

/-- Model of the chrono format string month/day/four-digit-year used by
QifExporter::export_transaction. -/
def formatMDY (t : DateTime) : Str :=
  natChars 2 t.month ++ '/' :: natChars 2 t.day ++ '/' :: intChars 4 t.year

/-- Model of format!("{}-{:02}", year, month), the month label of the trend
report. -/
def monthLabel (y : Int) (m : Nat) : Str := intChars 1 y ++ '-' :: natChars 2 m

/-! Civil-day arithmetic in the style of the standard days-from-civil and
civil-from-days algorithms, used to model chrono date minus Duration::days. -/

def civilToDays (y : Int) (m d : Nat) : Int :=
  let yAdj : Int := if m ≤ 2 then y - 1 else y
  let era : Int := Int.fdiv yAdj 400
  let yoe : Int := yAdj - era * 400
  let mp : Int := (Int.ofNat m + 9) % 12
  let doy : Int := Int.fdiv (153 * mp + 2) 5 + (Int.ofNat d - 1)
  let doe : Int := yoe * 365 + Int.fdiv yoe 4 - Int.fdiv yoe 100 + doy
  era * 146097 + doe - 719468

def daysToCivil (z : Int) : Int × Nat × Nat :=
  let z' : Int := z + 719468
  let era : Int := Int.fdiv z' 146097
  let doe : Int := z' - era * 146097
  let yoe : Int := Int.fdiv (doe - Int.fdiv doe 1460 + Int.fdiv doe 36524 - Int.fdiv doe 146096) 365
  let y : Int := yoe + era * 400
  let doy : Int := doe - (365 * yoe + Int.fdiv yoe 4 - Int.fdiv yoe 100)
  let mp : Int := Int.fdiv (5 * doy + 2) 153
  let d : Int := doy - Int.fdiv (153 * mp + 2) 5 + 1
  let m : Int := mp + (if mp < 10 then 3 else -9)
  (if m ≤ 2 then y + 1 else y, m.toNat, d.toNat)

def DateTime.toDays (t : DateTime) : Int := civilToDays t.year t.month t.day

/-- Model of DateTime(Utc) minus Duration::days(k): whole-day subtraction
keeps the time of day. -/
def DateTime.subDays (t : DateTime) (k : Int) : DateTime :=
  let c := daysToCivil (t.toDays - k)
  ⟨c.1, c.2.1, c.2.2, t.secs⟩

theorem natDigits_len_le {k n : Nat} (h : n < 10 ^ k) : (natDigits n).length ≤ k := by
  rw [natDigits_eq]
  induction k generalizing n with
  | zero =>
    have : n = 0 := by simpa using h
    subst this
    simp
  | succ k ih =>
    by_cases h0 : n = 0
    · subst h0; simp
    · rw [Nat.digits_def' (b := 10) (by norm_num) (Nat.pos_of_ne_zero h0)]
      have : n / 10 < 10 ^ k := by
        rw [Nat.div_lt_iff_lt_mul (by norm_num)]
        calc n < 10 ^ (k + 1) := h
        _ = 10 ^ k * 10 := by ring
      simpa using ih this

theorem natChars_length_eq {w n : Nat} (h : n < 10 ^ w) :
    (natChars w n).length = w := by
  rw [natChars_length]
  have := natDigits_len_le h
  omega

theorem trim_of_no_ws {s : Str} (h : ∀ c ∈ s, isWSChar c = false) : trim s = s := by
  have h1 : s.dropWhile isWSChar = s := by
    cases s with
    | nil => rfl
    | cons c rest => rw [List.dropWhile_cons, if_neg (by simp [h c (by simp)])]
  rw [trim, h1]
  have h2 : s.reverse.dropWhile isWSChar = s.reverse := by
    cases hrev : s.reverse with
    | nil => rfl
    | cons c rest =>
      have hc : c ∈ s := by
        rw [← List.mem_reverse, hrev]
        simp
      rw [List.dropWhile_cons, if_neg (by simp [h c hc])]
  rw [h2, List.reverse_reverse]

theorem splitChar_no_sep (sep : Char) (s : Str) (h : ¬ sep ∈ s) : splitChar sep s = [s] := by
  induction s with
  | nil => rfl
  | cons c rest ih =>
    have hc : c ≠ sep := fun hc => h (by simp [hc])
    have hr : ¬ sep ∈ rest := fun hr => h (by simp [hr])
    simp [splitChar, hc, ih hr]

theorem splitChar_append (sep : Char) (a rest : Str) (ha : ¬ sep ∈ a) :
    splitChar sep (a ++ sep :: rest) = a :: splitChar sep rest := by
  induction a with
  | nil =>
    simp [splitChar]
  | cons c a ih =>
    have hc : c ≠ sep := fun hc => ha (by simp [hc])
    have hr : ¬ sep ∈ a := fun hr => ha (by simp [hr])
    simp [splitChar, hc, ih hr]

theorem numField_natChars {w maxW n : Nat} (hw : 1 ≤ w)
    (hlen : (natChars w n).length ≤ maxW) : numField maxW (natChars w n) = some n := by
  have hne : natChars w n ≠ [] := by
    intro h
    have := congrArg List.length h
    rw [natChars_length] at this
    simp only [List.length_nil] at this
    omega
  rw [numField, if_pos ⟨hne, hlen, allDigits_natChars w n⟩, natFromDigitChars_natChars]

/-- No character of a natChars rendering is a separator, whitespace or an
apostrophe. -/
theorem natChars_char_facts {w n : Nat} {c : Char} (hc : c ∈ natChars w n) :
    c ≠ '/' ∧ c ≠ '-' ∧ isWSChar c = false ∧ c ≠ apoChar := by
  obtain ⟨dv, hdv, rfl⟩ := natChars_mem w n c hc
  interval_cases dv <;> refine ⟨by decide, by decide, by decide, by decide⟩

/-- Formatting a valid date as month/day/four-digit-year and parsing it back
through the import format list yields the same civil date at midnight. -/
theorem parse_qif_date_formatMDY (t : DateTime)
    (hv : validYMD t.year t.month t.day = true) (hy0 : 0 ≤ t.year) (hy : t.year ≤ 9999) :
    parse_qif_date (formatMDY t) = some ⟨t.year, t.month, t.day, 0⟩ := by
  obtain ⟨y, mo, d, secs⟩ := t
  simp only at hv hy0 hy ⊢
  have hmo : 1 ≤ mo ∧ mo ≤ 12 ∧ 1 ≤ d ∧ d ≤ 31 := by
    simp only [validYMD, Bool.and_eq_true, decide_eq_true_eq] at hv
    have := hv.1.1.1
    have := hv.1.1.2
    have := hv.1.2
    have hd31 : daysInMonth y mo ≤ 31 := by
      rw [daysInMonth]
      split
      · split <;> omega
      · split <;> omega
    omega
  have hyn : y.toNat ≤ 9999 := by omega
  have hfmt : formatMDY ⟨y, mo, d, secs⟩ =
      natChars 2 mo ++ '/' :: (natChars 2 d ++ '/' :: natChars 4 y.toNat) := by
    simp only [formatMDY, intChars]
    rw [if_neg (by omega : ¬ y < 0)]
    simp
  rw [hfmt]
  have hmem3 : ∀ c, c ∈ natChars 2 mo ∨ c ∈ natChars 2 d ∨ c ∈ natChars 4 y.toNat →
      c ≠ '/' ∧ c ≠ '-' ∧ isWSChar c = false ∧ c ≠ apoChar := by
    rintro c (hc | hc | hc) <;> exact natChars_char_facts hc
  have hnows : ∀ c ∈ natChars 2 mo ++ '/' :: (natChars 2 d ++ '/' :: natChars 4 y.toNat),
      isWSChar c = false ∧ c ≠ apoChar := by
    intro c hc
    simp only [List.mem_append, List.mem_cons] at hc
    rcases hc with hc | hc | hc
    · exact ⟨(hmem3 c (Or.inl hc)).2.2.1, (hmem3 c (Or.inl hc)).2.2.2⟩
    · subst hc; constructor
      · decide
      · decide
    · rcases hc with hc | hc | hc
      · exact ⟨(hmem3 c (Or.inr (Or.inl hc))).2.2.1, (hmem3 c (Or.inr (Or.inl hc))).2.2.2⟩
      · subst hc; constructor
        · decide
        · decide
      · exact ⟨(hmem3 c (Or.inr (Or.inr hc))).2.2.1, (hmem3 c (Or.inr (Or.inr hc))).2.2.2⟩
  have hclean : (trim (natChars 2 mo ++ '/' :: (natChars 2 d ++ '/' :: natChars 4 y.toNat))).filter
      (fun c => c ≠ apoChar) = natChars 2 mo ++ '/' :: (natChars 2 d ++ '/' :: natChars 4 y.toNat) := by
    rw [trim_of_no_ws (fun c hc => (hnows c hc).1)]
    rw [List.filter_eq_self.mpr]
    intro c hc
    simp [(hnows c hc).2]
  have hsplit : splitChar '/' (natChars 2 mo ++ '/' :: (natChars 2 d ++ '/' :: natChars 4 y.toNat)) =
      [natChars 2 mo, natChars 2 d, natChars 4 y.toNat] := by
    rw [splitChar_append _ _ _ (fun hc => ((hmem3 _ (Or.inl hc)).1 rfl)),
      splitChar_append _ _ _ (fun hc => ((hmem3 _ (Or.inr (Or.inl hc))).1 rfl)),
      splitChar_no_sep _ _ (fun hc => ((hmem3 _ (Or.inr (Or.inr hc))).1 rfl))]
  have hm2 : (natChars 2 mo).length = 2 := natChars_length_eq (by omega)
  have hd2 : (natChars 2 d).length = 2 := natChars_length_eq (by omega)
  have hy4 : (natChars 4 y.toNat).length = 4 := natChars_length_eq (by omega)
  have h4 : tryMDY4 '/' (natChars 2 mo ++ '/' :: (natChars 2 d ++ '/' :: natChars 4 y.toNat)) =
      some ⟨y, mo, d, 0⟩ := by
    unfold tryMDY4
    rw [hsplit]
    simp only [@numField_natChars 2 2 mo (by norm_num) (by omega),
      @numField_natChars 2 2 d (by norm_num) (by omega),
      @numField_natChars 4 4 y.toNat (by norm_num) (by omega)]
    rw [mkMidnight, show ((y.toNat : Nat) : Int) = y by omega, if_pos hv]
  simp only [parse_qif_date, hclean, h4, Option.or]

/-! Record model from src/data.rs. -/

inductive AccountType where
  | Checking
  | Savings
  | CreditCard
  | Investment
  | Cash
  | Liability
  | Asset
  | Other (tag : Str)
  deriving DecidableEq, Repr

inductive TransactionType where
  | Debit
  | Credit
  | Transfer
  | Fee
  | Interest
  | Dividend
  | OtherT (tag : Str)
  deriving DecidableEq, Repr

structure Account where
  id : Nat
  name : Str
  account_type : AccountType
  institution : Option Str
  account_number : Option Str
  balance : Dec
  currency : Str
  created_at : DateTime
  updated_at : DateTime
  deriving DecidableEq, Repr

/-- Account::new; the fresh Uuid is the caller-supplied counter value and the
construction timestamps are the supplied wall clock. -/
def Account.new (id : Nat) (name : Str) (account_type : AccountType) (balance : Dec)
    (currency : Str) (now : DateTime) : Account :=
  ⟨id, name, account_type, none, none, balance, currency, now, now⟩

structure Transaction where
  id : Nat
  account_id : Nat
  date : DateTime
  amount : Dec
  description : Str
  category : Option Str
  payee : Option Str
  memo : Option Str
  cleared : Bool
  reconciled : Bool
  transaction_type : TransactionType
  created_at : DateTime
  updated_at : DateTime
  deriving DecidableEq, Repr

/-- Transaction::new with the fresh Uuid and wall clock supplied by the caller. -/
def Transaction.new (id account_id : Nat) (date : DateTime) (amount : Dec)
    (description : Str) (transaction_type : TransactionType) (now : DateTime) : Transaction :=
  ⟨id, account_id, date, amount, description, none, none, none, false, false,
    transaction_type, now, now⟩

structure FinancialData where
  accounts : List Account
  transactions : List Transaction
  categories : List Str
  payees : List Str
  deriving DecidableEq, Repr

def FinancialData.new : FinancialData := ⟨[], [], [], []⟩

def FinancialData.add_account (d : FinancialData) (a : Account) : FinancialData :=
  { d with accounts := d.accounts ++ [a] }

/-- FinancialData::add_transaction maintains the category and payee side
tables with append-if-absent before pushing the transaction. -/
def FinancialData.add_transaction (d : FinancialData) (t : Transaction) : FinancialData :=
  let cats := match t.category with
    | some c => if d.categories.contains c then d.categories else d.categories ++ [c]
    | none => d.categories
  let pys := match t.payee with
    | some p => if d.payees.contains p then d.payees else d.payees ++ [p]
    | none => d.payees
  ⟨d.accounts, d.transactions ++ [t], cats, pys⟩

def FinancialData.get_account_transactions (d : FinancialData) (account_id : Nat) :
    List Transaction :=
  d.transactions.filter (fun t => t.account_id == account_id)

def FinancialData.calculate_account_balance (d : FinancialData) (account_id : Nat) : ℚ :=
  ((d.get_account_transactions account_id).map (fun t =>
    match t.transaction_type with
    | .Credit => t.amount.toRat
    | .Debit => -t.amount.toRat
    | .Transfer => t.amount.toRat
    | _ => t.amount.toRat)).sum

/-! Importer from src/quicken.rs. -/

/-- QifImporter::parse_account_type: a case-insensitive lookup; the fallback
stores the lowercased text, exactly as the source binds the lowercased
match value. -/
def parse_account_type (s : Str) : AccountType :=
  let lc := toLowerStr s
  if lc = "bank".data ∨ lc = "checking".data then .Checking
  else if lc = "savings".data then .Savings
  else if lc = "ccard".data ∨ lc = "credit".data then .CreditCard
  else if lc = "invst".data ∨ lc = "investment".data then .Investment
  else if lc = "cash".data then .Cash
  else if lc = "liability".data then .Liability
  else if lc = "asset".data then .Asset
  else .Other lc

/-- Field accumulator of parse_account_section (name, type, description;
the balance variable of the source is never assigned, so it is not
accumulated here and the section always builds with Decimal::ZERO). -/
structure AccFields where
  name : Str
  ty : AccountType
  desc : Option Str

/-- One line of the account record loop: N, T and D set fields, a lone caret
ends the record consuming its line, anything else is ignored. -/
inductive AccStep where
  | done
  | cont (st : AccFields)

def accStep (line : Str) (st : AccFields) : AccStep :=
  if line.head? = some 'N' then .cont { st with name := line.tail }
  else if line.head? = some 'T' then .cont { st with ty := parse_account_type line.tail }
  else if line.head? = some 'D' then .cont { st with desc := some line.tail }
  else if line = ['^'] then .done
  else .cont st

/-- The field loop of parse_account_section: stops without consuming at an
empty or sentinel line, consumes the caret terminator, accumulates fields. -/
def accountFieldsLoop : List Str → AccFields → AccFields × List Str
  | [], st => (st, [])
  | l :: rest, st =>
    let line := trim l
    if line.isEmpty || startsTok ['!'] line then (st, l :: rest)
    else
      match accStep line st with
      | .done => (st, rest)
      | .cont st' => accountFieldsLoop rest st'

/-- QifImporter::parse_account_section: accumulate fields, then build the
account with Decimal::ZERO balance and hard-coded USD currency, storing the
description on the institution attribute. -/
def parse_account_section (now : DateTime) (id : Nat) (ls : List Str) : Account × List Str :=
  let r := accountFieldsLoop ls ⟨"Unknown Account".data, .Other ("Unknown".data), none⟩
  let acc0 := Account.new id r.1.name r.1.ty Dec.zero ("USD".data) now
  ({ acc0 with institution := r.1.desc }, r.2)

/-- Field accumulator of parse_single_transaction. -/
structure TxnFields where
  date : Option DateTime
  amount : Dec
  description : Str
  payee : Option Str
  category : Option Str
  memo : Option Str
  cleared : Bool

def TxnFields.start : TxnFields := ⟨none, Dec.zero, "Unknown".data, none, none, none, false⟩

/-- One line of the transaction record loop: the caret ends the record; a
date or amount that fails to parse is a record-level error at that line;
payee and memo also overwrite the description in scan order; the cleared
marker compares against a star or a case-insensitive x; unknown tags are
ignored. -/
inductive TxnStep where
  | done
  | fail (e : Str)
  | cont (st : TxnFields)

def txnStep (line : Str) (st : TxnFields) : TxnStep :=
  if line = ['^'] then .done
  else if line.head? = some 'D' then
    match parse_qif_date line.tail with
    | some dt => .cont { st with date := some dt }
    | none => .fail ("Could not parse date".data)
  else if line.head? = some 'T' then
    match Dec.fromChars? (trim line.tail) with
    | some a => .cont { st with amount := a }
    | none => .fail ("Failed to parse transaction amount".data)
  else if line.head? = some 'P' then
    .cont { st with payee := some line.tail, description := line.tail }
  else if line.head? = some 'L' then .cont { st with category := some line.tail }
  else if line.head? = some 'M' then
    .cont { st with memo := some line.tail, description := line.tail }
  else if line.head? = some 'C' then
    .cont { st with cleared := line.tail = ['*'] || toLowerStr line.tail = ['x'] }
  else .cont st

/-- The field loop of parse_single_transaction: end of input is an implicit
terminator; on a failing line the cursor is left at that line. -/
def txnFieldsLoop : List Str → TxnFields → (Except Str TxnFields) × List Str
  | [], st => (.ok st, [])
  | l :: rest, st =>
    let line := trim l
    match txnStep line st with
    | .done => (.ok st, rest)
    | .fail e => (.error e, l :: rest)
    | .cont st' => txnFieldsLoop rest st'

/-- QifImporter::parse_single_transaction: scan the fields, then build the
transaction; a missing date defaults to the wall clock, the sign of the
amount selects credit versus debit and the stored magnitude is the absolute
value. -/
def parse_single_transaction (now : DateTime) (id account_id : Nat) (ls : List Str) :
    (Except Str Transaction) × List Str :=
  match txnFieldsLoop ls TxnFields.start with
  | (.ok f, rest) =>
    let transaction_date := f.date.getD now
    let ttype : TransactionType := if f.amount.isNonneg then .Credit else .Debit
    let t0 := Transaction.new id account_id transaction_date f.amount.abs f.description ttype now
    let t1 := { t0 with payee := f.payee, category := f.category, memo := f.memo, cleared := f.cleared }
    (.ok t1, rest)
  | (.error e, rest) => (.error e, rest)

theorem txnFieldsLoop_rest_le (ls : List Str) :
    ∀ st, ((txnFieldsLoop ls st).2).length ≤ ls.length := by
  induction ls with
  | nil => intro st; simp [txnFieldsLoop]
  | cons l rest ih =>
    intro st
    simp only [txnFieldsLoop]
    cases txnStep (trim l) st with
    | done => simp
    | fail e => simp
    | cont st' =>
      simp only
      exact Nat.le_succ_of_le (ih st')

theorem txnFieldsLoop_ok_lt (l : Str) (rest : List Str) (st : TxnFields)
    (f : TxnFields) (rest' : List Str)
    (h : txnFieldsLoop (l :: rest) st = (.ok f, rest')) : rest'.length ≤ rest.length := by
  simp only [txnFieldsLoop] at h
  split at h
  · cases h
    exact le_rfl
  · cases h
  · rename_i st' hstep
    have := txnFieldsLoop_rest_le rest st'
    rw [h] at this
    exact this

theorem parse_single_rest (now : DateTime) (id account_id : Nat) (ls : List Str) :
    (parse_single_transaction now id account_id ls).2 = (txnFieldsLoop ls TxnFields.start).2 := by
  simp only [parse_single_transaction]
  rcases h : txnFieldsLoop ls TxnFields.start with ⟨res, rest⟩
  cases res <;> rfl

theorem parse_single_rest_le (now : DateTime) (id account_id : Nat) (ls : List Str) :
    ((parse_single_transaction now id account_id ls).2).length ≤ ls.length := by
  rw [parse_single_rest]
  exact txnFieldsLoop_rest_le ls _

theorem parse_single_ok_le (now : DateTime) (id account_id : Nat) (l : Str) (rest : List Str)
    (t : Transaction) (rest' : List Str)
    (h : parse_single_transaction now id account_id (l :: rest) = (.ok t, rest')) :
    rest'.length ≤ rest.length := by
  have hr := parse_single_rest now id account_id (l :: rest)
  rw [h] at hr
  rcases hf : txnFieldsLoop (l :: rest) TxnFields.start with ⟨res, rf⟩
  rw [hf] at hr
  simp only at hr
  subst hr
  cases res with
  | ok f => exact txnFieldsLoop_ok_lt l rest _ f _ hf
  | error e =>
    exfalso
    simp only [parse_single_transaction, hf] at h
    simp at h

/-- QifImporter::parse_transaction_section: stop before an empty or sentinel
line; push each parsed record; when a record fails, advance one line past
the failure point and keep scanning.  The source signature is a Result that
never carries an error.  The id counter is threaded for the fresh
transaction ids.  The extra fuel argument is a structural bound on the loop:
every iteration of the source loop advances the cursor by at least one line,
so any fuel at least the number of remaining lines yields the loop result
(parse_transaction_section_fuel_irrel below); callers pass the line count. -/
def parse_transaction_section (now : DateTime) (account_id : Nat) :
    Nat → List Str → Nat → List Transaction × List Str × Nat
  | _, [], nid => ([], [], nid)
  | 0, ls, nid => ([], ls, nid)
  | fuel + 1, l :: rest, nid =>
    let line := trim l
    if line.isEmpty || startsTok ['!'] line then ([], l :: rest, nid)
    else
      match parse_single_transaction now nid account_id (l :: rest) with
      | (.ok t, rest') =>
        let r := parse_transaction_section now account_id fuel rest' (nid + 1)
        (t :: r.1, r.2.1, r.2.2)
      | (.error _, rest') => parse_transaction_section now account_id fuel rest'.tail nid

theorem accountFieldsLoop_rest_le (ls : List Str) :
    ∀ st, ((accountFieldsLoop ls st).2).length ≤ ls.length := by
  induction ls with
  | nil => intro st; simp [accountFieldsLoop]
  | cons l rest ih =>
    intro st
    simp only [accountFieldsLoop]
    split
    · simp
    · cases accStep (trim l) st with
      | done => simp
      | cont st' =>
        simp only
        exact Nat.le_succ_of_le (ih st')

theorem parse_transaction_section_rest_le (now : DateTime) (account_id : Nat) :
    ∀ (fuel : Nat) (ls : List Str) (nid : Nat),
      ((parse_transaction_section now account_id fuel ls nid).2.1).length ≤ ls.length := by
  intro fuel
  induction fuel with
  | zero =>
    intro ls nid
    cases ls <;> simp [parse_transaction_section]
  | succ fuel ih =>
    intro ls nid
    cases ls with
    | nil => simp [parse_transaction_section]
    | cons l rest =>
      rw [parse_transaction_section]
      split
      · simp
      · split
        · rename_i hg t rest' h
          have h1 := parse_single_ok_le now nid account_id l rest t rest' h
          have h2 := ih rest' (nid + 1)
          simp only [List.length_cons]
          omega
        · rename_i hg e rest' h
          have h2 := parse_single_rest_le now nid account_id (l :: rest)
          rw [h] at h2
          simp only [List.length_cons] at h2
          have h3 : rest'.tail.length = rest'.length - 1 := by
            cases rest' <;> simp
          have h4 := ih rest'.tail nid
          simp only [List.length_cons]
          omega

theorem parse_account_section_rest_le (now : DateTime) (id : Nat) (ls : List Str) :
    ((parse_account_section now id ls).2).length ≤ ls.length := by
  simp only [parse_account_section]
  exact accountFieldsLoop_rest_le ls _

/-- Parser state of the document-level scan: the document built so far, the
current account context, the write-only name-to-id map, and the id counter. -/
structure QifState where
  data : FinancialData
  current : Option Account
  account_map : List (Str × Nat)
  nextId : Nat

/-- The document scanner of QifImporter::parse_qif_content: an account
sentinel opens an account record and makes it current; a type sentinel
requires a current account (else the structural error) and reads a
transaction section for it; every other line is skipped.  As for the
section loop, the fuel is a structural bound on the cursor, sufficient
whenever it is at least the number of remaining lines, since every
iteration of the source loop advances the cursor. -/
def qifLines (now : DateTime) : Nat → List Str → QifState → Except Str FinancialData
  | _, [], st => .ok st.data
  | 0, _ :: _, st => .ok st.data
  | fuel + 1, l :: rest, st =>
    let line := trim l
    if startsTok ("!Account".data) line then
      let r := parse_account_section now st.nextId rest
      qifLines now fuel r.2
        ⟨st.data.add_account r.1, some r.1, (r.1.name, r.1.id) :: st.account_map, st.nextId + 1⟩
    else if startsTok ("!Type:".data) line then
      match st.current with
      | none => .error ("No current account for transactions".data)
      | some a =>
        let r := parse_transaction_section now a.id fuel rest st.nextId
        qifLines now fuel r.2.1
          ⟨r.1.foldl FinancialData.add_transaction st.data, st.current, st.account_map, r.2.2⟩
    else qifLines now fuel rest st

/-- QifImporter::parse_qif_content, with the wall clock explicit; the line
count is always enough fuel for the scan. -/
def parse_qif_content (now : DateTime) (content : Str) : Except Str FinancialData :=
  qifLines now (linesOf content).length (linesOf content) ⟨FinancialData.new, none, [], 0⟩

/-! Exporter from src/quicken.rs.  Each element of the line lists below is
one push_str("...\n") of the source; the empty lines are its bare
push of a newline between blocks, and export_to_string is the
concatenation with a newline terminating every line. -/

def account_type_to_qif : AccountType → Str
  | .Checking => "Bank".data
  | .Savings => "Bank".data
  | .CreditCard => "CCard".data
  | .Investment => "Invst".data
  | .Cash => "Cash".data
  | .Liability => "Liability".data
  | .Asset => "Asset".data
  | .Other _ => "Bank".data

/-- QifExporter::export_account as its sequence of lines. -/
def export_account_lines (a : Account) : List Str :=
  ["!Account".data, 'N' :: a.name, 'T' :: account_type_to_qif a.account_type]
    ++ (match a.institution with | some inst => ['D' :: inst] | none => [])
    ++ [['^']]

/-- QifExporter::export_transaction as its sequence of lines: date, amount
with the sign reapplied for debits, the optional payee, category and memo
tags in that order, the cleared marker only when set, and the terminator. -/
def export_transaction_lines (t : Transaction) : List Str :=
  ('D' :: formatMDY t.date)
    :: ('T' :: Dec.render (match t.transaction_type with | .Debit => t.amount.neg | _ => t.amount))
    :: ((match t.payee with | some p => ['P' :: p] | none => [])
      ++ (match t.category with | some c => ['L' :: c] | none => [])
      ++ (match t.memo with | some m => ['M' :: m] | none => [])
      ++ (if t.cleared then [['C', '*']] else [])
      ++ [['^']])

/-- QifExporter::export_transactions as its sequence of lines. -/
def export_transactions_lines (ts : List Transaction) (a : Account) : List Str :=
  ("!Type:".data ++ account_type_to_qif a.account_type)
    :: ts.flatMap export_transaction_lines

/-- QifExporter::export_to_string as its sequence of lines: per account the
account record, a blank separator, and, when the account owns transactions,
its transaction section and another blank separator. -/
def export_lines (d : FinancialData) : List Str :=
  d.accounts.flatMap (fun a =>
    export_account_lines a ++ [[]] ++
      (let ts := d.get_account_transactions a.id
       if ts.isEmpty then [] else export_transactions_lines ts a ++ [[]]))

def export_to_string (d : FinancialData) : Str := joinNL (export_lines d)

/-- Projection selecting the error payload of a decode result. -/
def exceptErr? : Except Str FinancialData → Option Str
  | .error e => some e
  | .ok _ => none

theorem exceptErr_eq {x : Except Str FinancialData} {e : Str} :
    exceptErr? x = some e ↔ x = .error e := by
  cases x <;> simp [exceptErr?]

/-! Analysis engine from src/analysis.rs.  Monetary values are the exact
rationals (Dec.toRat of the stored Decimals); rust_decimal addition and
comparison agree exactly with the rationals and its division rounds only
past 28 significant digits, beyond every behavior in scope. -/

structure MonthlyReport where
  year : Int
  month : Nat
  total_income : ℚ
  total_expenses : ℚ
  net_income : ℚ
  category_breakdown : List (Str × ℚ)
  transaction_count : Nat

structure CategoryAnalysis where
  category : Str
  total_amount : ℚ
  transaction_count : Nat
  average_amount : ℚ
  percentage_of_total : ℚ
  deriving DecidableEq, Repr

inductive TrendDirection where
  | Increasing
  | Decreasing
  | Stable
  deriving DecidableEq, Repr

structure SpendingTrend where
  category : Str
  monthly_amounts : List (Str × ℚ)
  trend_direction : TrendDirection
  average_monthly : ℚ

/-- A HashMap entry update: get the current value (with a default) and
insert, modelled on an association list kept in first-insertion order; the
source only ever reads the map through get, so the list order is a
bookkeeping choice standing in for the unspecified HashMap iteration
order. -/
def upsert (k : Str) (f : ℚ → ℚ) (dflt : ℚ) : List (Str × ℚ) → List (Str × ℚ)
  | [] => [(k, f dflt)]
  | (k', v) :: rest => if k' = k then (k', f v) :: rest else (k', v) :: upsert k f dflt rest

/-- Lookup in the association-list model of the category maps. -/
def lookupQ (k : Str) : List (Str × ℚ) → Option ℚ
  | [] => none
  | (k', v) :: rest => if k' = k then some v else lookupQ k rest

/-- The loop body of generate_monthly_report: credits accumulate into the
income component, debits into the expenses component, other kinds into
neither, and every categorized transaction updates the category map. -/
def monthlyStep (acc : ℚ × ℚ × List (Str × ℚ)) (t : Transaction) : ℚ × ℚ × List (Str × ℚ) :=
  let income := match t.transaction_type with
    | .Credit => acc.1 + t.amount.toRat
    | _ => acc.1
  let expenses := match t.transaction_type with
    | .Debit => acc.2.1 + t.amount.toRat
    | _ => acc.2.1
  let breakdown := match t.category with
    | some c => upsert c (fun v => v + t.amount.toRat) 0 acc.2.2
    | none => acc.2.2
  (income, expenses, breakdown)

/-- AnalysisEngine::generate_monthly_report: filter the month, accumulate
credit amounts as income and debit amounts as expenses (other kinds count
toward neither), accumulate every matched categorized transaction into the
category map, and report net = income minus expenses with the matched
count. -/
def generate_monthly_report (data : FinancialData) (year : Int) (month : Nat) :
    MonthlyReport :=
  let month_transactions := data.transactions.filter
    (fun t => t.date.year == year && t.date.month == month)
  let acc := month_transactions.foldl monthlyStep (0, 0, [])
  { year := year, month := month, total_income := acc.1, total_expenses := acc.2.1,
    net_income := acc.1 - acc.2.1, category_breakdown := acc.2.2,
    transaction_count := month_transactions.length }

/-- The per-category update of analyze_categories: the HashMap get with the
(ZERO, 0) default followed by the insert of the incremented running total
and count, on the association-list model. -/
def catUpsert (category : Str) (amt : ℚ) : List (Str × ℚ × Nat) → List (Str × ℚ × Nat)
  | [] => [(category, amt, 1)]
  | (k, v, n) :: rest =>
    if k = category then (k, v + amt, n + 1) :: rest else (k, v, n) :: catUpsert category amt rest

/-- The loop body of the grouping pass of analyze_categories. -/
def categoryStep (acc : List (Str × ℚ × Nat) × ℚ) (t : Transaction) :
    List (Str × ℚ × Nat) × ℚ :=
  if t.transaction_type = .Debit then
    let category := t.category.getD ("Uncategorized".data)
    (catUpsert category t.amount.toRat acc.1, acc.2 + t.amount.toRat)
  else acc

/-- The grouping pass of AnalysisEngine::analyze_categories: per-category
running total and count over the debit transactions, with the missing
category replaced by the literal Uncategorized; the grand total accumulates
every debit amount. -/
def categoryTotals (ts : List Transaction) : List (Str × ℚ × Nat) × ℚ :=
  ts.foldl categoryStep ([], 0)

/-- Stable insertion into a list sorted by descending total, placing the new
element before the first strictly smaller total; any stable sort by the same
key produces the same output as the stable sort_by of the source. -/
def insertByTotal (x : CategoryAnalysis) : List CategoryAnalysis → List CategoryAnalysis
  | [] => [x]
  | y :: ys => if y.total_amount ≤ x.total_amount then x :: y :: ys else y :: insertByTotal x ys

def sortByTotalDesc : List CategoryAnalysis → List CategoryAnalysis
  | [] => []
  | x :: xs => insertByTotal x (sortByTotalDesc xs)

/-- AnalysisEngine::analyze_categories: group debits by category, build one
analysis row per category with mean guarded by a zero count and percentage
guarded by a zero grand total, then sort by total amount descending. -/
def analyze_categories (data : FinancialData) : List CategoryAnalysis :=
  let r := categoryTotals data.transactions
  let results := r.1.map (fun e =>
    let average_amount : ℚ := if 0 < e.2.2 then e.2.1 / (e.2.2 : ℚ) else 0
    let percentage_of_total : ℚ := if 0 < r.2 then e.2.1 / r.2 * 100 else 0
    { category := e.1, total_amount := e.2.1, transaction_count := e.2.2,
      average_amount := average_amount, percentage_of_total := percentage_of_total })
  sortByTotalDesc results

/-- AnalysisEngine::calculate_average: the mean of the amounts, zero for an
empty slice. -/
def calculate_average (amounts : List (Str × ℚ)) : ℚ :=
  if amounts.isEmpty then 0
  else (amounts.map (fun p => p.2)).sum / (amounts.length : ℚ)

/-- AnalysisEngine::calculate_trend_direction: sequences shorter than two
points are stable; otherwise compare the average of the upper half against
the average of the lower half (split at floor of half the length) with a
threshold of one tenth of the lower-half average; the Decimal::from_f32(0.1)
of the source is exactly one tenth. -/
def calculate_trend_direction (monthly_amounts : List (Str × ℚ)) : TrendDirection :=
  if monthly_amounts.length < 2 then .Stable
  else
    let first_half_avg := calculate_average (monthly_amounts.take (monthly_amounts.length / 2))
    let second_half_avg := calculate_average (monthly_amounts.drop (monthly_amounts.length / 2))
    let difference := second_half_avg - first_half_avg
    let threshold := first_half_avg * (1 / 10)
    if difference > threshold then .Increasing
    else if difference < -threshold then .Decreasing
    else .Stable

/-- The deduplicated category list of analyze_spending_trends; the source
collects a HashSet, whose iteration order is unspecified, modelled here in
first-appearance order. -/
def distinctCategories (ts : List Transaction) : List Str :=
  (ts.filterMap (fun t => t.category)).foldl
    (fun acc c => if acc.contains c then acc else acc ++ [c]) []

/-- The per-month debit sum of analyze_spending_trends for one category:
transactions in the calendar month of the target date, in the category, of
debit kind. -/
def monthCategoryTotal (data : FinancialData) (category : Str) (y : Int) (m : Nat) : ℚ :=
  ((data.transactions.filter (fun t =>
    t.date.year == y && t.date.month == m && t.category == some category &&
      t.transaction_type == TransactionType.Debit)).map (fun t => t.amount.toRat)).sum

/-- AnalysisEngine::analyze_spending_trends with the wall clock explicit:
for every distinct category, one labelled entry per step of thirty days
backward from now, reversed to chronological order, with direction and mean
over the collected points.  The source accumulates the rows into a HashMap
and returns its values; the rows are kept here in category order, a
bookkeeping stand-in for the unspecified HashMap order. -/
def analyze_spending_trends (data : FinancialData) (now : DateTime) (months_back : Nat) :
    List SpendingTrend :=
  (distinctCategories data.transactions).map (fun category =>
    let monthly_amounts := ((List.range months_back).map (fun (i : Nat) =>
      let target_date := now.subDays (30 * ((i : Nat) : Int))
      (monthLabel target_date.year target_date.month,
        monthCategoryTotal data category target_date.year target_date.month))).reverse
    let trend_direction := calculate_trend_direction monthly_amounts
    let total := (monthly_amounts.map (fun p => p.2)).sum
    let average_monthly : ℚ :=
      if ¬ monthly_amounts.isEmpty then total / (monthly_amounts.length : ℚ) else 0
    { category := category, monthly_amounts := monthly_amounts,
      trend_direction := trend_direction, average_monthly := average_monthly })

/-! Shared concrete fixtures for witnesses and counterexamples. -/

def epoch : DateTime := ⟨1970, 1, 1, 0⟩

/-- A categorized transaction fixture builder used by the analysis claims. -/
def mkTx (y : Int) (mo dy : Nat) (amt : Dec) (ty : TransactionType) (cat : Str) : Transaction :=
  { Transaction.new 0 0 ⟨y, mo, dy, 0⟩ amt ("Test".data) ty epoch with category := some cat }

/-! Claim C4: a transaction-section sentinel before any account section fails
the whole decode with the missing-context error. -/

theorem startsTok_type_not_account (s : Str) (h : startsTok ("!Type:".data) s = true) :
    startsTok ("!Account".data) s = false := by
  rcases s with _ | ⟨c1, _ | ⟨c2, rest⟩⟩
  · simp [startsTok] at h
  · simp [show ("!Type:".data) = '!' :: 'T' :: 'y' :: 'p' :: 'e' :: ':' :: [] from rfl,
      startsTok] at h
  · simp only [show ("!Type:".data) = '!' :: 'T' :: 'y' :: 'p' :: 'e' :: ':' :: [] from rfl,
      show ("!Account".data) = '!' :: 'A' :: 'c' :: 'c' :: 'o' :: 'u' :: 'n' :: 't' :: [] from rfl,
      startsTok, Bool.and_eq_true, decide_eq_true_eq] at h ⊢
    obtain ⟨rfl, rfl, _⟩ := h
    simp

theorem qifLines_type_before_account (now : DateTime) :
    ∀ (pre : List Str) (fuel : Nat) (l : Str) (post : List Str) (st : QifState),
      (pre ++ l :: post).length ≤ fuel → st.current = none →
      startsTok ("!Type:".data) (trim l) = true →
      (∀ p ∈ pre, startsTok ("!Account".data) (trim p) = false) →
      qifLines now fuel (pre ++ l :: post) st =
        .error ("No current account for transactions".data) := by
  intro pre
  induction pre with
  | nil =>
    intro fuel l post st hfuel hcur hty _
    cases fuel with
    | zero => simp at hfuel
    | succ fuel =>
      rw [List.nil_append, qifLines]
      rw [if_neg (by rw [startsTok_type_not_account _ hty]; simp), if_pos hty, hcur]
  | cons p pre ih =>
    intro fuel l post st hfuel hcur hty hpre
    cases fuel with
    | zero => simp at hfuel
    | succ fuel =>
      rw [List.cons_append, qifLines]
      rw [if_neg (by rw [hpre p (by simp)]; simp)]
      by_cases hpty : startsTok ("!Type:".data) (trim p) = true
      · rw [if_pos hpty, hcur]
      · rw [if_neg hpty]
        exact ih fuel l post st (by simp at hfuel ⊢; omega) hcur hty
          (fun q hq => hpre q (by simp [hq]))

/-- Claim C4: for every input in which a type-section sentinel line appears
before any account-section line, the decoder fails the entire decode with
the error naming the missing account context. -/
theorem C4_structural_failure (now : DateTime) (content : Str)
    (pre : List Str) (l : Str) (post : List Str)
    (hsplit : linesOf content = pre ++ l :: post)
    (hty : startsTok ("!Type:".data) (trim l) = true)
    (hpre : ∀ p ∈ pre, startsTok ("!Account".data) (trim p) = false) :
    parse_qif_content now content = .error ("No current account for transactions".data) := by
  rw [parse_qif_content, hsplit]
  exact qifLines_type_before_account now pre _ l post _ le_rfl rfl hty hpre

/-- Witness for C4 at the concrete input of scenario six: a type sentinel as
the very first line. -/
theorem C4_structural_failure_witness :
    parse_qif_content epoch ("!Type:Bank\nD12/1/2023\nT5.00\n^\n").data =
      .error ("No current account for transactions".data) :=
  C4_structural_failure epoch _ [] ("!Type:Bank".data)
    [("D12/1/2023".data), ("T5.00".data), ("^".data)]
    (by decide) (by decide) (by intro p hp; simp at hp)

/-! Claim C10: every decoded account carries balance zero and currency USD. -/

theorem parse_account_section_balance (now : DateTime) (id : Nat) (ls : List Str) :
    (parse_account_section now id ls).1.balance = Dec.zero ∧
      (parse_account_section now id ls).1.currency = "USD".data := by
  simp [parse_account_section, Account.new]

theorem add_transaction_accounts (d : FinancialData) (t : Transaction) :
    (d.add_transaction t).accounts = d.accounts := rfl

theorem foldl_add_transaction_accounts (ts : List Transaction) :
    ∀ d : FinancialData, (ts.foldl FinancialData.add_transaction d).accounts = d.accounts := by
  induction ts with
  | nil => intro d; rfl
  | cons t ts ih => intro d; rw [List.foldl_cons, ih, add_transaction_accounts]

theorem qifLines_accounts_prop (now : DateTime) (P : Account → Prop)
    (hP : ∀ id ls, P (parse_account_section now id ls).1) :
    ∀ (fuel : Nat) (ls : List Str) (st : QifState),
      (∀ a ∈ st.data.accounts, P a) →
      ∀ D, qifLines now fuel ls st = .ok D → ∀ a ∈ D.accounts, P a := by
  intro fuel
  induction fuel with
  | zero =>
    intro ls st hst D hD
    cases ls with
    | nil =>
      rw [qifLines] at hD
      cases hD
      exact hst
    | cons l rest =>
      rw [qifLines] at hD
      cases hD
      exact hst
  | succ fuel ih =>
    intro ls st hst D hD
    cases ls with
    | nil =>
      rw [qifLines] at hD
      cases hD
      exact hst
    | cons l rest =>
      rw [qifLines] at hD
      split at hD
      · refine ih _ _ ?_ D hD
        intro a ha
        simp only [FinancialData.add_account, List.mem_append, List.mem_singleton] at ha
        rcases ha with ha | rfl
        · exact hst a ha
        · exact hP st.nextId rest
      · split at hD
        · split at hD
          · cases hD
          · refine ih _ _ ?_ D hD
            intro a ha
            rw [foldl_add_transaction_accounts] at ha
            exact hst a ha
        · exact ih _ _ hst D hD

/-- Claim C10: for every input and wall clock, every account of the decoded
document has balance exactly Decimal::ZERO and currency USD; the account
record parser never assigns a balance and hard-codes the currency. -/
theorem C10_account_balance_currency (now : DateTime) (content : Str) (D : FinancialData)
    (hD : parse_qif_content now content = .ok D) :
    ∀ a ∈ D.accounts, a.balance = Dec.zero ∧ a.currency = "USD".data := by
  refine qifLines_accounts_prop now _ ?_ _ _ _ ?_ D hD
  · intro id ls
    exact parse_account_section_balance now id ls
  · intro a ha
    simp [FinancialData.new] at ha

/-- Concrete two-account input for the C10 witness; one record carries a
balance-like field line that the account parser ignores. -/
def c10input : Str :=
  ("!Account\nNChecking\nTBank\nB500.00\n^\n!Account\nNSavings\nTSavings\n^\n").data

def c10doc : FinancialData :=
  match parse_qif_content epoch c10input with
  | .ok d => d
  | .error _ => FinancialData.new

/-- Witness for C10: the concrete input decodes to two accounts, both with
zero balance and USD currency. -/
theorem C10_account_balance_currency_witness :
    c10doc.accounts.length = 2 ∧
      ∀ a ∈ c10doc.accounts, a.balance = Dec.zero ∧ a.currency = "USD".data :=
  ⟨by decide, C10_account_balance_currency epoch c10input c10doc rfl⟩

/-! Claim C2 (corrected).  The decoder does not discard the remainder of a
record whose date or amount fails to parse: it advances one line past the
failing line and re-attempts record parsing there, so trailing field lines
of the malformed record can produce a transaction of their own. -/

/-- Concrete input whose only transaction record has an unparseable date. -/
def c2input : Str := ("!Account\nNA\nTBank\n^\n!Type:Bank\nDbad\nT50.00\nPStore\n^\n").data

/-- Counterexample to C2 as stated: decoding the input whose only record has
the unparseable date line Dbad yields a document that still contains one
transaction, built from the amount and payee field lines of that discarded
record, where the claim requires no transaction derived from any of its
field lines. -/
theorem C2_counterexample :
    (parse_qif_content epoch c2input).toOption.map
        (fun d => (d.transactions.length, d.transactions.map (fun t => t.payee),
          d.transactions.map (fun t => t.amount))) =
      some (1, [some ("Store".data)], [⟨false, 5000, 2⟩]) := by
  decide

/-- Claim C2 as amended: on a record whose current line fails to parse, the
section scanner surfaces no error; it leaves the cursor at the failing line,
advances exactly one line, and resumes record parsing from there, rather
than skipping to the next record boundary. -/
theorem C2_record_failure_resume (now : DateTime) (account_id fuel nid : Nat)
    (l : Str) (rest : List Str)
    (hguard : ((trim l).isEmpty || startsTok ['!'] (trim l)) = false)
    (e : Str) (rest' : List Str)
    (herr : parse_single_transaction now nid account_id (l :: rest) = (.error e, rest')) :
    parse_transaction_section now account_id (fuel + 1) (l :: rest) nid =
      parse_transaction_section now account_id fuel rest'.tail nid := by
  rw [parse_transaction_section]
  rw [if_neg (by rw [hguard]; simp)]
  rw [herr]

/-- Witness for the amended C2 at the concrete failing record: the scan
resumes at the amount line right after the bad date line. -/
theorem C2_record_failure_resume_witness :
    parse_transaction_section epoch 0 4
        (("Dbad".data) :: ("T50.00".data) :: ("PStore".data) :: [("^".data)]) 0 =
      parse_transaction_section epoch 0 3
        (("T50.00".data) :: ("PStore".data) :: [("^".data)]) 0 :=
  C2_record_failure_resume epoch 0 3 0 ("Dbad".data)
    (("T50.00".data) :: ("PStore".data) :: [("^".data)]) (by decide)
    ("Could not parse date".data)
    (("Dbad".data) :: ("T50.00".data) :: ("PStore".data) :: [("^".data)]) rfl

/-! Claim C3 (corrected).  The trend window steps back in jumps of thirty
days, not calendar months, so the per-category month entries need not be
distinct consecutive months. -/

/-- Concrete document with one categorized March debit for the C3 analysis. -/
def c3doc : FinancialData :=
  ⟨[], [mkTx 2024 3 10 ⟨false, 500, 2⟩ .Debit ("A".data)], [], []⟩

/-- Counterexample to C3 as stated: anchored at 2024-03-31 with a two-month
lookback, both produced entries carry the label of March 2024 — the thirty
day step from March 31 lands on March 1 — so the entries are not two
distinct consecutive calendar months. -/
theorem C3_counterexample :
    ((analyze_spending_trends c3doc ⟨2024, 3, 31, 0⟩ 2).map
        (fun tr => tr.monthly_amounts.map Prod.fst) =
      [[("2024-03").data, ("2024-03").data]]) ∧
    ¬ (∀ tr ∈ analyze_spending_trends c3doc ⟨2024, 3, 31, 0⟩ 2,
        (tr.monthly_amounts.map Prod.fst).Pairwise (fun a b => a ≠ b)) := by
  have h0 : DateTime.subDays ⟨2024, 3, 31, 0⟩ 0 = ⟨2024, 3, 31, 0⟩ := by decide
  have h30 : DateTime.subDays ⟨2024, 3, 31, 0⟩ 30 = ⟨2024, 3, 1, 0⟩ := by decide
  have hlbl : monthLabel 2024 3 = ("2024-03").data := by decide
  have hc : distinctCategories c3doc.transactions = [("A".data)] := by decide
  have hP1 : (analyze_spending_trends c3doc ⟨2024, 3, 31, 0⟩ 2).map
      (fun tr => tr.monthly_amounts.map Prod.fst) = [[("2024-03").data, ("2024-03").data]] := by
    simp only [analyze_spending_trends, hc, List.range_succ, List.range_zero, List.map_cons,
      List.map_nil, List.nil_append, List.append_assoc, List.cons_append,
      List.reverse_cons, List.reverse_nil]
    simp [h0, h30, hlbl]
  refine ⟨hP1, ?_⟩
  intro hall
  obtain ⟨tr, htr, hlbls⟩ : ∃ tr ∈ analyze_spending_trends c3doc ⟨2024, 3, 31, 0⟩ 2,
      tr.monthly_amounts.map Prod.fst = [("2024-03").data, ("2024-03").data] := by
    rcases hts : analyze_spending_trends c3doc ⟨2024, 3, 31, 0⟩ 2 with _ | ⟨tr, rest⟩
    · rw [hts] at hP1
      simp at hP1
    · rw [hts] at hP1
      simp only [List.map_cons] at hP1
      exact ⟨tr, by simp [hts], (List.cons.injEq _ _ _ _ ▸ hP1).1⟩
  have hpw := hall tr htr
  rw [hlbls] at hpw
  simp at hpw

/-- Claim C3 as amended: for every document, lookback and wall clock, the
trend report carries one row per distinct category; each row holds exactly
months-back entries, and, after the reversal to chronological order, the
entry at position j is labelled with the calendar month containing now minus
thirty times (months-back minus one minus j) days and holds the summed
debit-kind amounts of that category in that month.  The thirty-day steps do
not always give distinct consecutive calendar months. -/
theorem C3_trend_window (data : FinancialData) (now : DateTime) (months_back : Nat) :
    (analyze_spending_trends data now months_back).map (fun tr => tr.category) =
        distinctCategories data.transactions ∧
    ∀ tr ∈ analyze_spending_trends data now months_back,
      tr.monthly_amounts.length = months_back ∧
      ∀ j, j < months_back →
        tr.monthly_amounts[j]? =
          some (monthLabel (now.subDays (30 * ((months_back - 1 - j : Nat) : Int))).year
              (now.subDays (30 * ((months_back - 1 - j : Nat) : Int))).month,
            monthCategoryTotal data tr.category
              (now.subDays (30 * ((months_back - 1 - j : Nat) : Int))).year
              (now.subDays (30 * ((months_back - 1 - j : Nat) : Int))).month) := by
  constructor
  · rw [analyze_spending_trends, List.map_map]
    trans (List.map id (distinctCategories data.transactions))
    · exact List.map_congr_left (fun c _ => rfl)
    · exact List.map_id _
  · intro tr htr
    simp only [analyze_spending_trends, List.mem_map] at htr
    obtain ⟨c, hc, rfl⟩ := htr
    simp only
    constructor
    · simp only [List.length_reverse, List.length_map, List.length_range]
    · intro j hj
      rw [List.getElem?_reverse' j (months_back - 1 - j)
        (by simp only [List.length_map, List.length_range]; omega)]
      rw [List.getElem?_map, List.getElem?_range (by omega)]
      rfl

/-- Witness row of the C3 amended theorem at the concrete March document. -/
def c3tr : SpendingTrend :=
  ((analyze_spending_trends c3doc ⟨2024, 3, 31, 0⟩ 2).head?).getD ⟨[], [], .Stable, 0⟩

/-- Witness for the amended C3: the single row of the concrete trend report
has two entries and its first chronological entry is the thirty-day step
month with its debit sum. -/
theorem C3_trend_window_witness :
    c3tr.monthly_amounts.length = 2 ∧
    c3tr.monthly_amounts[0]? =
      some (monthLabel (DateTime.subDays ⟨2024, 3, 31, 0⟩ (30 * ((1 : Nat) : Int))).year
          (DateTime.subDays ⟨2024, 3, 31, 0⟩ (30 * ((1 : Nat) : Int))).month,
        monthCategoryTotal c3doc c3tr.category
          (DateTime.subDays ⟨2024, 3, 31, 0⟩ (30 * ((1 : Nat) : Int))).year
          (DateTime.subDays ⟨2024, 3, 31, 0⟩ (30 * ((1 : Nat) : Int))).month) := by
  have hmem : c3tr ∈ analyze_spending_trends c3doc ⟨2024, 3, 31, 0⟩ 2 := by
    have hne : analyze_spending_trends c3doc ⟨2024, 3, 31, 0⟩ 2 ≠ [] := by
      intro h
      have := congrArg List.length h
      simp only [analyze_spending_trends, List.length_map, List.length_nil] at this
      rw [show distinctCategories c3doc.transactions = [("A".data)] from by decide] at this
      simp at this
    rcases hts : analyze_spending_trends c3doc ⟨2024, 3, 31, 0⟩ 2 with _ | ⟨tr, rest⟩
    · exact absurd hts hne
    · have : c3tr = tr := by
        simp [c3tr, hts]
      rw [this]
      simp
  have h := (C3_trend_window c3doc ⟨2024, 3, 31, 0⟩ 2).2 c3tr hmem
  exact ⟨h.1, h.2 0 (by omega)⟩

/-! Claim C5: kind and sign law. -/

theorem Dec.isNonneg_iff (d : Dec) : d.isNonneg = true ↔ 0 ≤ d.toRat := by
  obtain ⟨sgn, m, s⟩ := d
  have hp : (0 : ℚ) < 10 ^ s := by positivity
  cases sgn with
  | false =>
    show (!false || (m == 0)) = true ↔ 0 ≤ (if false = true then -(m : ℚ) else (m : ℚ)) / 10 ^ s
    rw [if_neg (by simp)]
    simp only [Bool.not_false, Bool.true_or, true_iff]
    positivity
  | true =>
    show (!true || (m == 0)) = true ↔ 0 ≤ (if true = true then -(m : ℚ) else (m : ℚ)) / 10 ^ s
    rw [if_pos rfl]
    simp only [Bool.not_true, Bool.false_or, beq_iff_eq]
    constructor
    · rintro rfl
      simp
    · intro h
      have h2 := (le_div_iff₀ hp).mp h
      rw [zero_mul] at h2
      have hm : (m : ℚ) = 0 := le_antisymm (by linarith) (by positivity)
      exact_mod_cast hm

theorem Dec.abs_toRat_nonneg (d : Dec) : 0 ≤ d.abs.toRat := by
  simp only [Dec.abs, Dec.toRat]
  rw [if_neg (by simp)]
  positivity

/-- The head of the rendered Decimal is the minus sign exactly when the sign
bit is set; otherwise it is a digit. -/
theorem Dec.render_head (d : Dec) : ((Dec.render d).head? = some '-') ↔ d.sign = true := by
  obtain ⟨sgn, m, s⟩ := d
  have hL : s + 1 ≤ (natChars (s + 1) m).length := natChars_length_ge _ _
  have hipne : (natChars (s + 1) m).take ((natChars (s + 1) m).length - s) ≠ [] := by
    intro h
    have := congrArg List.length h
    rw [List.length_take] at this
    simp at this
    omega
  obtain ⟨c0, ip', hip⟩ : ∃ c0 ip',
      (natChars (s + 1) m).take ((natChars (s + 1) m).length - s) = c0 :: ip' := by
    rcases h : (natChars (s + 1) m).take ((natChars (s + 1) m).length - s) with _ | ⟨c0, ip'⟩
    · exact absurd h hipne
    · exact ⟨c0, ip', rfl⟩
  have hc0 : ∃ dv, dv < 10 ∧ c0 = digitChar dv := by
    apply natChars_mem
    exact List.take_subset _ _ (by rw [hip]; simp)
  obtain ⟨dv, hdv, rfl⟩ := hc0
  cases sgn with
  | true => simp [Dec.render]
  | false =>
    have hr : Dec.render ⟨false, m, s⟩ = digitChar dv ::
        (ip' ++ (if s = 0 then [] else
          '.' :: (natChars (s + 1) m).drop ((natChars (s + 1) m).length - s))) := by
      simp only [Dec.render]
      rw [if_neg (by simp : ¬ (false = true)), List.nil_append, hip]
      simp
    rw [hr]
    simp [(digitChar_facts hdv).1]

/-- Claim C5: on decode, the stored amount is the absolute value of the
scanned amount, hence non-negative with a clear sign bit, and the kind is
credit exactly when the scanned amount is numerically non-negative, debit
when negative; on export, for every transaction whose stored amount has a
clear sign bit, the amount line carries the sign reapplied from the kind, so
the rendered amount begins with a minus sign exactly when the kind is
debit (a zero debit renders as negative zero, which still carries the
sign). -/
theorem C5_kind_sign_law :
    (∀ (now : DateTime) (id account_id : Nat) (ls : List Str) (t : Transaction)
        (rest : List Str),
      parse_single_transaction now id account_id ls = (.ok t, rest) →
      ∃ f, txnFieldsLoop ls TxnFields.start = (.ok f, rest) ∧
        t.amount = f.amount.abs ∧ t.amount.sign = false ∧ 0 ≤ t.amount.toRat ∧
        t.transaction_type =
          (if 0 ≤ f.amount.toRat then TransactionType.Credit else TransactionType.Debit)) ∧
    (∀ t : Transaction, t.amount.sign = false →
      (export_transaction_lines t)[1]? =
        some ('T' :: Dec.render (match t.transaction_type with
          | .Debit => t.amount.neg | _ => t.amount)) ∧
      (t.transaction_type = .Debit ↔
        (Dec.render (match t.transaction_type with
          | .Debit => t.amount.neg | _ => t.amount)).head? = some '-')) := by
  constructor
  · intro now id account_id ls t rest h
    rw [parse_single_transaction] at h
    rcases hf : txnFieldsLoop ls TxnFields.start with ⟨res, rest₀⟩
    rw [hf] at h
    cases res with
    | ok f =>
      simp only at h
      have hfst := congrArg Prod.fst h
      have hsnd := congrArg Prod.snd h
      simp only at hfst hsnd
      have ht := Except.ok.inj hfst
      subst hsnd
      refine ⟨f, rfl, ?_, ?_, ?_, ?_⟩ <;> rw [← ht]
      · rfl
      · rfl
      · exact Dec.abs_toRat_nonneg _
      · by_cases h0 : 0 ≤ f.amount.toRat
        · rw [if_pos h0]
          show (if f.amount.isNonneg = true then TransactionType.Credit
            else TransactionType.Debit) = TransactionType.Credit
          rw [if_pos ((Dec.isNonneg_iff f.amount).mpr h0)]
        · rw [if_neg h0]
          show (if f.amount.isNonneg = true then TransactionType.Credit
            else TransactionType.Debit) = TransactionType.Debit
          rw [if_neg (fun hh => h0 ((Dec.isNonneg_iff f.amount).mp hh))]
    | error e => simp at h
  · intro t hsign
    simp only [export_transaction_lines]
    cases hty : t.transaction_type <;>
      refine ⟨by simp, ?_⟩ <;>
      simp [Dec.render_head, Dec.neg, hsign, hty]

/-- The transaction decoded from the one-record amount-only fixture, a
negative fifty: stored as magnitude fifty, kind debit. -/
def c5t : Transaction :=
  match parse_single_transaction epoch 0 0 (("T-50.00".data) :: [("^".data)]) with
  | (.ok t, _) => t
  | (.error _, _) => Transaction.new 0 0 epoch Dec.zero [] .Credit epoch

/-- Witness for C5: the import half applied to the concrete negative-amount
record and the export half applied to the resulting debit transaction. -/
theorem C5_kind_sign_law_witness :
    (∃ f, txnFieldsLoop (("T-50.00".data) :: [("^".data)]) TxnFields.start =
        (.ok f, ([] : List Str)) ∧
      c5t.amount = f.amount.abs ∧ c5t.amount.sign = false ∧ 0 ≤ c5t.amount.toRat ∧
      c5t.transaction_type =
        (if 0 ≤ f.amount.toRat then TransactionType.Credit else TransactionType.Debit)) ∧
    ((export_transaction_lines c5t)[1]? =
      some ('T' :: Dec.render (match c5t.transaction_type with
        | .Debit => c5t.amount.neg | _ => c5t.amount)) ∧
    (c5t.transaction_type = .Debit ↔
      (Dec.render (match c5t.transaction_type with
        | .Debit => c5t.amount.neg | _ => c5t.amount)).head? = some '-')) :=
  ⟨C5_kind_sign_law.1 epoch 0 0 (("T-50.00".data) :: [("^".data)]) c5t [] rfl,
   C5_kind_sign_law.2 c5t (by decide)⟩

/-! Claim C6: the period report.  The reference sums below are the
specification-side descriptions (filter and sum) that the accumulator loop
of the source is proved equal to. -/

def sumAmounts (ts : List Transaction) : ℚ := (ts.map (fun t => t.amount.toRat)).sum

def creditsOf (ts : List Transaction) : List Transaction :=
  ts.filter (fun t => t.transaction_type == TransactionType.Credit)

def debitsOf (ts : List Transaction) : List Transaction :=
  ts.filter (fun t => t.transaction_type == TransactionType.Debit)

theorem monthlyStep_foldl_income (ts : List Transaction) :
    ∀ acc : ℚ × ℚ × List (Str × ℚ),
      (ts.foldl monthlyStep acc).1 = acc.1 + sumAmounts (creditsOf ts) := by
  induction ts with
  | nil => intro acc; simp [sumAmounts, creditsOf]
  | cons t ts ih =>
    intro acc
    rw [List.foldl_cons, ih]
    cases hty : t.transaction_type <;>
      simp [monthlyStep, creditsOf, sumAmounts, hty, List.filter_cons] <;> ring

theorem monthlyStep_foldl_expenses (ts : List Transaction) :
    ∀ acc : ℚ × ℚ × List (Str × ℚ),
      (ts.foldl monthlyStep acc).2.1 = acc.2.1 + sumAmounts (debitsOf ts) := by
  induction ts with
  | nil => intro acc; simp [sumAmounts, debitsOf]
  | cons t ts ih =>
    intro acc
    rw [List.foldl_cons, ih]
    cases hty : t.transaction_type <;>
      simp [monthlyStep, debitsOf, sumAmounts, hty, List.filter_cons] <;> ring

theorem lookupQ_upsert (c k : Str) (f : ℚ → ℚ) (d : ℚ) (l : List (Str × ℚ)) :
    lookupQ c (upsert k f d l) =
      if k = c then some (f ((lookupQ k l).getD d)) else lookupQ c l := by
  induction l with
  | nil =>
    by_cases hkc : k = c <;> simp [upsert, lookupQ, hkc]
  | cons p rest ih =>
    rcases p with ⟨k', v⟩
    by_cases hk'k : k' = k
    · subst hk'k
      by_cases hkc : k' = c <;> simp [upsert, lookupQ, hkc]
    · by_cases hk'c : k' = c
      · subst hk'c
        have hkc : ¬ k = k' := fun h => hk'k h.symm
        simp [upsert, lookupQ, hk'k, hkc]
      · simp [upsert, lookupQ, hk'k, hk'c, ih]

theorem monthlyStep_foldl_breakdown (ts : List Transaction) :
    ∀ (acc : ℚ × ℚ × List (Str × ℚ)) (c : Str),
      lookupQ c (ts.foldl monthlyStep acc).2.2 =
        (if (ts.filter (fun t => t.category == some c)).isEmpty then lookupQ c acc.2.2
         else some ((lookupQ c acc.2.2).getD 0 +
           sumAmounts (ts.filter (fun t => t.category == some c)))) := by
  induction ts with
  | nil => intro acc c; simp
  | cons t ts ih =>
    intro acc c
    rw [List.foldl_cons, ih]
    by_cases hmatch : (t.category == some c) = true
    · have hcat : t.category = some c := by simpa using hmatch
      have hbd : (monthlyStep acc t).2.2 =
          upsert c (fun v => v + t.amount.toRat) 0 acc.2.2 := by
        simp [monthlyStep, hcat]
      have hft : (t :: ts).filter (fun t => t.category == some c) =
          t :: ts.filter (fun t => t.category == some c) := by
        simp [List.filter_cons, hmatch]
      rw [hbd, hft, lookupQ_upsert, if_pos rfl]
      by_cases hrest : (ts.filter (fun t => t.category == some c)).isEmpty
      · rw [if_pos hrest, if_neg (by simp)]
        have hemp : ts.filter (fun t => t.category == some c) = [] :=
          List.isEmpty_iff.mp hrest
        simp [sumAmounts, hemp]
      · rw [if_neg hrest, if_neg (by simp)]
        have hsum : sumAmounts (t :: ts.filter (fun t => t.category == some c)) =
            t.amount.toRat + sumAmounts (ts.filter (fun t => t.category == some c)) := by
          simp [sumAmounts]
        rw [hsum]
        simp only [Option.getD_some, Option.some.injEq]
        ring
    · have hbd2 : lookupQ c (monthlyStep acc t).2.2 = lookupQ c acc.2.2 := by
        rcases hcat : t.category with _ | c'
        · simp [monthlyStep, hcat]
        · have hc : ¬ c' = c := by
            intro h
            subst h
            simp [hcat] at hmatch
          simp [monthlyStep, hcat, lookupQ_upsert, hc]
      have hft : (t :: ts).filter (fun t => t.category == some c) =
          ts.filter (fun t => t.category == some c) := by
        simp only [List.filter_cons]
        rw [if_neg hmatch]
      rw [hft, hbd2]

/-- Concrete one-month document of scenario two: one five hundred debit and
one three thousand credit in January of twenty twenty-four. -/
def c6doc : FinancialData :=
  ⟨[], [mkTx 2024 1 10 ⟨false, 50000, 2⟩ .Debit ("Rent".data),
        mkTx 2024 1 25 ⟨false, 300000, 2⟩ .Credit ("Salary".data)], [], []⟩

/-- Claim C6 counterexample: the month containing exactly a five hundred
debit and a three thousand credit reports income three thousand and
expenses five hundred as claimed, but its net income is two thousand five
hundred, not the two thousand three hundred of the claim. -/
theorem C6_counterexample :
    (generate_monthly_report c6doc 2024 1).total_income = 3000 ∧
    (generate_monthly_report c6doc 2024 1).total_expenses = 500 ∧
    (generate_monthly_report c6doc 2024 1).transaction_count = 2 ∧
    (generate_monthly_report c6doc 2024 1).net_income = 2500 ∧
    ¬ (generate_monthly_report c6doc 2024 1).net_income = 2300 := by
  refine ⟨?_, ?_, by decide, ?_, ?_⟩ <;>
    norm_num [generate_monthly_report, c6doc, mkTx, Transaction.new, monthlyStep,
      Dec.toRat, epoch]

/-- Claim C6 (amended): for every document and target year and month, the
period report sums credit-kind amounts of the matched month into income
and debit-kind amounts into expenses, counts other kinds toward neither,
sets net to income minus expenses, returns the matched count, and its
category map holds, for every label, the sum of the amounts of all
matched transactions with that label regardless of kind; and the concrete
month with a five hundred debit and a three thousand credit reports
income three thousand, expenses five hundred, net two thousand five
hundred, and count two. -/
theorem C6_period_report :
    (∀ (data : FinancialData) (year : Int) (month : Nat),
      (generate_monthly_report data year month).total_income =
        sumAmounts (creditsOf (data.transactions.filter
          (fun t => t.date.year == year && t.date.month == month))) ∧
      (generate_monthly_report data year month).total_expenses =
        sumAmounts (debitsOf (data.transactions.filter
          (fun t => t.date.year == year && t.date.month == month))) ∧
      (generate_monthly_report data year month).net_income =
        (generate_monthly_report data year month).total_income -
          (generate_monthly_report data year month).total_expenses ∧
      (generate_monthly_report data year month).transaction_count =
        (data.transactions.filter
          (fun t => t.date.year == year && t.date.month == month)).length ∧
      (∀ c : Str,
        lookupQ c (generate_monthly_report data year month).category_breakdown =
          (if ((data.transactions.filter
                (fun t => t.date.year == year && t.date.month == month)).filter
                (fun t => t.category == some c)).isEmpty then none
           else some (sumAmounts ((data.transactions.filter
                (fun t => t.date.year == year && t.date.month == month)).filter
                (fun t => t.category == some c)))))) ∧
    ((generate_monthly_report c6doc 2024 1).total_income = 3000 ∧
      (generate_monthly_report c6doc 2024 1).total_expenses = 500 ∧
      (generate_monthly_report c6doc 2024 1).net_income = 2500 ∧
      (generate_monthly_report c6doc 2024 1).transaction_count = 2) := by
  constructor
  · intro data year month
    refine ⟨?_, ?_, rfl, rfl, ?_⟩
    · rw [show (generate_monthly_report data year month).total_income =
        ((data.transactions.filter (fun t => t.date.year == year && t.date.month == month)).foldl
          monthlyStep (0, 0, [])).1 from rfl]
      rw [monthlyStep_foldl_income]
      simp
    · rw [show (generate_monthly_report data year month).total_expenses =
        ((data.transactions.filter (fun t => t.date.year == year && t.date.month == month)).foldl
          monthlyStep (0, 0, [])).2.1 from rfl]
      rw [monthlyStep_foldl_expenses]
      simp
    · intro c
      rw [show (generate_monthly_report data year month).category_breakdown =
        ((data.transactions.filter (fun t => t.date.year == year && t.date.month == month)).foldl
          monthlyStep (0, 0, [])).2.2 from rfl]
      rw [monthlyStep_foldl_breakdown]
      simp only [lookupQ, Option.getD_none, zero_add]
  · refine ⟨?_, ?_, ?_, by decide⟩ <;>
      norm_num [generate_monthly_report, c6doc, mkTx, Transaction.new, monthlyStep,
        Dec.toRat, epoch]

/-! Claim C7: the category ranking.  catDebits below is the
specification-side regrouping (filter of the debit transactions by
grouping key) that the accumulator map of the source is proved equal
to. -/

/-- The grouping key of analyze_categories: the category, or the literal
Uncategorized bucket when the category is missing. -/
def debitKey (t : Transaction) : Str := t.category.getD ("Uncategorized".data)

/-- Specification-side regrouping: the debit transactions whose grouping
key is the given label. -/
def catDebits (ts : List Transaction) (c : Str) : List Transaction :=
  (debitsOf ts).filter (fun t => debitKey t == c)

/-- Lookup in the association-list model of the per-category
total-and-count map. -/
def lookup3 (k : Str) : List (Str × ℚ × Nat) → Option (ℚ × Nat)
  | [] => none
  | (k', v) :: rest => if k' = k then some v else lookup3 k rest

theorem lookup3_catUpsert (c k : Str) (amt : ℚ) (l : List (Str × ℚ × Nat)) :
    lookup3 c (catUpsert k amt l) =
      if k = c then
        some (((lookup3 k l).getD (0, 0)).1 + amt, ((lookup3 k l).getD (0, 0)).2 + 1)
      else lookup3 c l := by
  induction l with
  | nil =>
    by_cases hkc : k = c <;> simp [catUpsert, lookup3, hkc]
  | cons p rest ih =>
    rcases p with ⟨k', v, n⟩
    by_cases hk'k : k' = k
    · subst hk'k
      by_cases hkc : k' = c <;> simp [catUpsert, lookup3, hkc]
    · by_cases hk'c : k' = c
      · subst hk'c
        have hkc : ¬ k = k' := fun h => hk'k h.symm
        simp [catUpsert, lookup3, hk'k, hkc]
      · simp [catUpsert, lookup3, hk'k, hk'c, ih]

theorem categoryStep_foldl_lookup (ts : List Transaction) :
    ∀ (acc : List (Str × ℚ × Nat) × ℚ) (c : Str),
      lookup3 c (ts.foldl categoryStep acc).1 =
        if (catDebits ts c).isEmpty then lookup3 c acc.1
        else some (((lookup3 c acc.1).getD (0, 0)).1 + sumAmounts (catDebits ts c),
                   ((lookup3 c acc.1).getD (0, 0)).2 + (catDebits ts c).length) := by
  induction ts with
  | nil => intro acc c; simp [catDebits, debitsOf]
  | cons t ts ih =>
    intro acc c
    rw [List.foldl_cons, ih]
    by_cases hdeb : t.transaction_type = .Debit
    · have hstep : (categoryStep acc t).1 = catUpsert (debitKey t) t.amount.toRat acc.1 := by
        simp [categoryStep, hdeb, debitKey]
      by_cases hkey : debitKey t = c
      · have hft : catDebits (t :: ts) c = t :: catDebits ts c := by
          simp [catDebits, debitsOf, List.filter_cons, hdeb, hkey]
        rw [hft, hstep, hkey, lookup3_catUpsert, if_pos rfl]
        by_cases hrest : (catDebits ts c).isEmpty
        · rw [if_pos hrest, if_neg (by simp)]
          have hemp : catDebits ts c = [] := List.isEmpty_iff.mp hrest
          simp [sumAmounts, hemp]
        · rw [if_neg hrest, if_neg (by simp)]
          have hsum : sumAmounts (t :: catDebits ts c) =
              t.amount.toRat + sumAmounts (catDebits ts c) := by simp [sumAmounts]
          rw [hsum]
          simp only [Option.getD_some, Option.some.injEq, Prod.mk.injEq, List.length_cons]
          constructor
          · ring
          · omega
      · have hft : catDebits (t :: ts) c = catDebits ts c := by
          simp [catDebits, debitsOf, List.filter_cons, hdeb, hkey]
        have hl : lookup3 c (categoryStep acc t).1 = lookup3 c acc.1 := by
          rw [hstep, lookup3_catUpsert, if_neg hkey]
        rw [hft, hl]
    · have hft : catDebits (t :: ts) c = catDebits ts c := by
        simp [catDebits, debitsOf, List.filter_cons, hdeb]
      have hacc : categoryStep acc t = acc := by simp [categoryStep, hdeb]
      rw [hft, hacc]

theorem categoryStep_foldl_total (ts : List Transaction) :
    ∀ (acc : List (Str × ℚ × Nat) × ℚ),
      (ts.foldl categoryStep acc).2 = acc.2 + sumAmounts (debitsOf ts) := by
  induction ts with
  | nil => intro acc; simp [debitsOf, sumAmounts]
  | cons t ts ih =>
    intro acc
    rw [List.foldl_cons, ih]
    by_cases hdeb : t.transaction_type = .Debit
    · have h2 : (categoryStep acc t).2 = acc.2 + t.amount.toRat := by
        simp [categoryStep, hdeb]
      have hft : debitsOf (t :: ts) = t :: debitsOf ts := by
        simp [debitsOf, List.filter_cons, hdeb]
      rw [h2, hft]
      have hsum : sumAmounts (t :: debitsOf ts) =
          t.amount.toRat + sumAmounts (debitsOf ts) := by simp [sumAmounts]
      rw [hsum]
      ring
    · have h2 : categoryStep acc t = acc := by simp [categoryStep, hdeb]
      have hft : debitsOf (t :: ts) = debitsOf ts := by
        simp [debitsOf, List.filter_cons, hdeb]
      rw [h2, hft]

theorem catUpsert_keys (k : Str) (amt : ℚ) (l : List (Str × ℚ × Nat)) :
    (catUpsert k amt l).map Prod.fst =
      if k ∈ l.map Prod.fst then l.map Prod.fst else l.map Prod.fst ++ [k] := by
  induction l with
  | nil => simp [catUpsert]
  | cons p rest ih =>
    rcases p with ⟨k', v, n⟩
    by_cases hk : k' = k
    · subst hk
      simp [catUpsert]
    · have hkk : ¬ k = k' := fun h => hk h.symm
      by_cases hmem : k ∈ rest.map Prod.fst <;>
        simp [catUpsert, hk, hkk, ih, hmem]

theorem categoryTotals_keys_nodup (ts : List Transaction) :
    ∀ (acc : List (Str × ℚ × Nat) × ℚ), (acc.1.map Prod.fst).Nodup →
      (((ts.foldl categoryStep acc).1).map Prod.fst).Nodup := by
  induction ts with
  | nil => intro acc h; simpa using h
  | cons t ts ih =>
    intro acc h
    rw [List.foldl_cons]
    apply ih
    by_cases hdeb : t.transaction_type = .Debit
    · have hstep : (categoryStep acc t).1 = catUpsert (debitKey t) t.amount.toRat acc.1 := by
        simp [categoryStep, hdeb, debitKey]
      rw [hstep, catUpsert_keys]
      by_cases hmem : debitKey t ∈ acc.1.map Prod.fst
      · rw [if_pos hmem]
        exact h
      · rw [if_neg hmem]
        refine List.Nodup.append h (List.nodup_singleton _) ?_
        intro a ha hb
        rw [List.mem_singleton] at hb
        subst hb
        exact hmem ha
    · have hacc : categoryStep acc t = acc := by simp [categoryStep, hdeb]
      rw [hacc]
      exact h

theorem lookup3_of_mem (l : List (Str × ℚ × Nat)) (p : Str × ℚ × Nat)
    (hnd : (l.map Prod.fst).Nodup) (hp : p ∈ l) : lookup3 p.1 l = some p.2 := by
  induction l with
  | nil => simp at hp
  | cons q rest ih =>
    rcases q with ⟨k', v⟩
    simp only [List.map_cons, List.nodup_cons] at hnd
    rcases List.mem_cons.mp hp with h | h
    · subst h
      simp [lookup3]
    · have hmem : p.1 ∈ rest.map Prod.fst := List.mem_map.mpr ⟨p, h, rfl⟩
      have hne : ¬ k' = p.1 := fun he => hnd.1 (by rw [he]; exact hmem)
      simp [lookup3, hne, ih hnd.2 h]

theorem lookup3_some_mem (c : Str) (l : List (Str × ℚ × Nat)) (v : ℚ × Nat)
    (h : lookup3 c l = some v) : (c, v) ∈ l := by
  induction l with
  | nil => simp [lookup3] at h
  | cons q rest ih =>
    rcases q with ⟨k', w⟩
    by_cases hk : k' = c
    · subst hk
      simp [lookup3] at h
      subst h
      exact List.mem_cons_self _ _
    · simp only [lookup3, if_neg hk] at h
      exact List.mem_cons_of_mem _ (ih h)

theorem insertByTotal_perm (x : CategoryAnalysis) (l : List CategoryAnalysis) :
    (insertByTotal x l).Perm (x :: l) := by
  induction l with
  | nil => exact List.Perm.refl _
  | cons y ys ih =>
    simp only [insertByTotal]
    by_cases hc : y.total_amount ≤ x.total_amount
    · rw [if_pos hc]
    · rw [if_neg hc]
      exact (ih.cons y).trans (List.Perm.swap x y ys)

theorem sortByTotalDesc_perm (l : List CategoryAnalysis) : (sortByTotalDesc l).Perm l := by
  induction l with
  | nil => exact List.Perm.refl _
  | cons x xs ih =>
    exact (insertByTotal_perm x (sortByTotalDesc xs)).trans (ih.cons x)

theorem insertByTotal_sorted (x : CategoryAnalysis) (l : List CategoryAnalysis)
    (h : l.Pairwise (fun a b => b.total_amount ≤ a.total_amount)) :
    (insertByTotal x l).Pairwise (fun a b => b.total_amount ≤ a.total_amount) := by
  induction l with
  | nil => simp [insertByTotal]
  | cons y ys ih =>
    rw [List.pairwise_cons] at h
    simp only [insertByTotal]
    by_cases hc : y.total_amount ≤ x.total_amount
    · rw [if_pos hc]
      refine List.Pairwise.cons ?_ (List.Pairwise.cons h.1 h.2)
      intro b hb
      rcases List.mem_cons.mp hb with hby | hbys
      · subst hby
        exact hc
      · exact le_trans (h.1 b hbys) hc
    · rw [if_neg hc]
      refine List.Pairwise.cons ?_ (ih h.2)
      intro b hb
      have hb2 : b ∈ x :: ys := (insertByTotal_perm x ys).mem_iff.mp hb
      rcases List.mem_cons.mp hb2 with hbx | hbys
      · subst hbx
        exact le_of_not_le hc
      · exact h.1 b hbys

theorem sortByTotalDesc_sorted (l : List CategoryAnalysis) :
    (sortByTotalDesc l).Pairwise (fun a b => b.total_amount ≤ a.total_amount) := by
  induction l with
  | nil => simp [sortByTotalDesc]
  | cons x xs ih => exact insertByTotal_sorted x (sortByTotalDesc xs) ih

/-- analyze_categories written out: the sort applied to the analysis rows
of the grouping map. -/
theorem analyze_categories_eq (data : FinancialData) :
    analyze_categories data =
      sortByTotalDesc (((categoryTotals data.transactions).1).map (fun e =>
        { category := e.1, total_amount := e.2.1, transaction_count := e.2.2,
          average_amount := if 0 < e.2.2 then e.2.1 / (e.2.2 : ℚ) else 0,
          percentage_of_total := if 0 < (categoryTotals data.transactions).2
            then e.2.1 / (categoryTotals data.transactions).2 * 100 else 0 })) := rfl

/-- Concrete two-category document of scenario three: Groceries five
hundred and six hundred, Dining two hundred and two hundred fifty, all
debits in January of twenty twenty-four. -/
def c7doc : FinancialData :=
  ⟨[], [mkTx 2024 1 5 ⟨false, 50000, 2⟩ .Debit ("Groceries".data),
        mkTx 2024 1 8 ⟨false, 20000, 2⟩ .Debit ("Dining".data),
        mkTx 2024 1 15 ⟨false, 60000, 2⟩ .Debit ("Groceries".data),
        mkTx 2024 1 20 ⟨false, 25000, 2⟩ .Debit ("Dining".data)], [], []⟩

/-- Claim C7: analyze_categories considers only debit transactions,
groups them by category with missing categories in the literal
Uncategorized bucket, reports per-category total, count, mean equal to
total over count, and percentage of the grand total of all debit
amounts, sorted by total descending; a label appears exactly when some
debit maps to it; and the concrete two-category document ranks totals
eleven hundred then four hundred fifty with means five hundred fifty and
two hundred twenty-five over two transactions each. -/
theorem C7_category_ranking :
    (∀ (data : FinancialData),
      (analyze_categories data).Pairwise
        (fun a b => b.total_amount ≤ a.total_amount) ∧
      (∀ e, e ∈ analyze_categories data →
        (catDebits data.transactions e.category).isEmpty = false ∧
        e.total_amount = sumAmounts (catDebits data.transactions e.category) ∧
        e.transaction_count = (catDebits data.transactions e.category).length ∧
        e.average_amount =
          (if 0 < e.transaction_count then e.total_amount / (e.transaction_count : ℚ) else 0) ∧
        e.percentage_of_total =
          (if 0 < sumAmounts (debitsOf data.transactions)
           then e.total_amount / sumAmounts (debitsOf data.transactions) * 100 else 0)) ∧
      (∀ c : Str, (∃ e, e ∈ analyze_categories data ∧ e.category = c) ↔
        (catDebits data.transactions c).isEmpty = false)) ∧
    ((analyze_categories c7doc).map
        (fun e => (e.category, e.total_amount, e.transaction_count, e.average_amount)) =
      [(("Groceries".data), (1100 : ℚ), 2, (550 : ℚ)),
       (("Dining".data), (450 : ℚ), 2, (225 : ℚ))]) := by
  constructor
  · intro data
    have hnd : (((categoryTotals data.transactions).1).map Prod.fst).Nodup :=
      categoryTotals_keys_nodup data.transactions ([], 0) (by simp)
    have htot : (categoryTotals data.transactions).2 =
        sumAmounts (debitsOf data.transactions) := by
      rw [show categoryTotals data.transactions =
        data.transactions.foldl categoryStep ([], 0) from rfl]
      rw [categoryStep_foldl_total]
      simp
    have hlkAll : ∀ c : Str, lookup3 c (categoryTotals data.transactions).1 =
        (if (catDebits data.transactions c).isEmpty then none
         else some (sumAmounts (catDebits data.transactions c),
                    (catDebits data.transactions c).length)) := by
      intro c
      rw [show categoryTotals data.transactions =
        data.transactions.foldl categoryStep ([], 0) from rfl]
      rw [categoryStep_foldl_lookup]
      by_cases hemp : (catDebits data.transactions c).isEmpty
      · rw [if_pos hemp, if_pos hemp]
        rfl
      · rw [if_neg hemp, if_neg hemp]
        simp [lookup3]
    refine ⟨?_, ?_, ?_⟩
    · rw [analyze_categories_eq]
      exact sortByTotalDesc_sorted _
    · intro e he
      rw [analyze_categories_eq] at he
      have he2 := (sortByTotalDesc_perm _).mem_iff.mp he
      rcases List.mem_map.mp he2 with ⟨p, hp, hfe⟩
      have hlk := lookup3_of_mem _ p hnd hp
      rw [hlkAll p.1] at hlk
      by_cases hemp : (catDebits data.transactions p.1).isEmpty
      · rw [if_pos hemp] at hlk
        exact absurd hlk (by simp)
      · rw [if_neg hemp] at hlk
        have hPL : (sumAmounts (catDebits data.transactions p.1),
            (catDebits data.transactions p.1).length) = p.2 := Option.some.inj hlk
        subst hfe
        refine ⟨by simpa using hemp, ?_, ?_, rfl, ?_⟩
        · show p.2.1 = _
          rw [← hPL]
        · show p.2.2 = _
          rw [← hPL]
        · show (if 0 < (categoryTotals data.transactions).2
              then p.2.1 / (categoryTotals data.transactions).2 * 100 else 0) = _
          rw [htot]
    · intro c
      constructor
      · rintro ⟨e, he, hcat⟩
        rw [analyze_categories_eq] at he
        have he2 := (sortByTotalDesc_perm _).mem_iff.mp he
        rcases List.mem_map.mp he2 with ⟨p, hp, hfe⟩
        have hlk := lookup3_of_mem _ p hnd hp
        rw [hlkAll p.1] at hlk
        by_cases hemp : (catDebits data.transactions p.1).isEmpty
        · rw [if_pos hemp] at hlk
          exact absurd hlk (by simp)
        · have hpc : p.1 = c := by rw [← hcat, ← hfe]
          rw [← hpc]
          simpa using hemp
      · intro hne
        have hlk := hlkAll c
        rw [if_neg (by simp [hne])] at hlk
        have hmem := lookup3_some_mem c _ _ hlk
        refine ⟨{ category := c,
                  total_amount := sumAmounts (catDebits data.transactions c),
                  transaction_count := (catDebits data.transactions c).length,
                  average_amount := if 0 < (catDebits data.transactions c).length
                    then sumAmounts (catDebits data.transactions c) /
                      ((catDebits data.transactions c).length : ℚ) else 0,
                  percentage_of_total := if 0 < (categoryTotals data.transactions).2
                    then sumAmounts (catDebits data.transactions c) /
                      (categoryTotals data.transactions).2 * 100 else 0 }, ?_, rfl⟩
        rw [analyze_categories_eq]
        exact (sortByTotalDesc_perm _).mem_iff.mpr
          (List.mem_map.mpr ⟨(c, sumAmounts (catDebits data.transactions c),
            (catDebits data.transactions c).length), hmem, rfl⟩)
  · set_option maxHeartbeats 2000000 in
    norm_num [analyze_categories, categoryTotals, categoryStep, catUpsert, c7doc,
      mkTx, Transaction.new, Dec.toRat, epoch, sortByTotalDesc, insertByTotal,
      debitKey]

/-- Witness for C7: the membership law applied at the document of the
concrete scenario and the Groceries label, whose debit group is
nonempty. -/
theorem C7_category_ranking_witness :
    (catDebits c7doc.transactions ("Groceries".data)).isEmpty = false ∧
    (∃ e, e ∈ analyze_categories c7doc ∧ e.category = ("Groceries".data)) :=
  ⟨by decide, ((C7_category_ranking.1 c7doc).2.2 ("Groceries".data)).mpr (by decide)⟩

/-! Claim C8: the trend direction rule, stated with the half averages
written out as explicit sums over the split halves. -/

/-- Short-sequence fixture for the trend rule: one point. -/
def c8l0 : List (Str × ℚ) := [(("a".data), 100)]

/-- The increasing scenario sequence. -/
def c8l1 : List (Str × ℚ) :=
  [(("a".data), 100), (("b".data), 150), (("c".data), 200), (("d".data), 250)]

/-- The decreasing scenario sequence, the reverse of the increasing one. -/
def c8l2 : List (Str × ℚ) :=
  [(("d".data), 250), (("c".data), 200), (("b".data), 150), (("a".data), 100)]

/-- The stable scenario sequence. -/
def c8l3 : List (Str × ℚ) :=
  [(("a".data), 200), (("b".data), 190), (("c".data), 210), (("d".data), 200)]

/-- Claim C8: a sequence shorter than two points is stable; otherwise the
direction compares the mean of the upper half against the mean of the
lower half, split at floor of half the length, with a threshold of one
tenth of the lower-half mean, strict excess giving increasing and strict
deficit beyond the negated threshold giving decreasing; and the three
scenario sequences classify as increasing, decreasing, and stable. -/
theorem C8_trend_direction :
    (∀ l : List (Str × ℚ), l.length < 2 → calculate_trend_direction l = .Stable) ∧
    (∀ l : List (Str × ℚ), 2 ≤ l.length →
      calculate_trend_direction l =
        (let fa := ((l.take (l.length / 2)).map (fun p => p.2)).sum /
           ((l.length / 2 : Nat) : ℚ)
         let sa := ((l.drop (l.length / 2)).map (fun p => p.2)).sum /
           ((l.length - l.length / 2 : Nat) : ℚ)
         if sa - fa > fa * (1 / 10) then TrendDirection.Increasing
         else if sa - fa < -(fa * (1 / 10)) then TrendDirection.Decreasing
         else TrendDirection.Stable)) ∧
    calculate_trend_direction c8l1 = .Increasing ∧
    calculate_trend_direction c8l2 = .Decreasing ∧
    calculate_trend_direction c8l3 = .Stable := by
  refine ⟨?_, ?_, ?_, ?_, ?_⟩
  · intro l h
    rw [calculate_trend_direction, if_pos h]
  · intro l h
    have hlt : ¬ l.length < 2 := Nat.not_lt.mpr h
    have h1 : 1 ≤ l.length / 2 := by omega
    have htk : ¬ (l.take (l.length / 2)).isEmpty = true := by
      rw [List.isEmpty_iff, ← List.length_eq_zero, List.length_take]
      omega
    have hdp : ¬ (l.drop (l.length / 2)).isEmpty = true := by
      rw [List.isEmpty_iff, ← List.length_eq_zero, List.length_drop]
      omega
    rw [calculate_trend_direction, if_neg hlt]
    simp only [calculate_average, htk, hdp, if_neg, if_false, ite_false, Bool.false_eq_true]
    rw [List.length_take, List.length_drop, Nat.min_eq_left (Nat.div_le_self _ _)]
  · norm_num [calculate_trend_direction, calculate_average, c8l1]
  · norm_num [calculate_trend_direction, calculate_average, c8l2]
  · norm_num [calculate_trend_direction, calculate_average, c8l3]

/-- Witness for C8: the short-sequence rule at the one-point sequence and
the split rule at the increasing scenario sequence. -/
theorem C8_trend_direction_witness :
    (c8l0.length < 2 ∧ calculate_trend_direction c8l0 = .Stable) ∧
    (2 ≤ c8l1.length ∧
      calculate_trend_direction c8l1 =
        (let fa := ((c8l1.take (c8l1.length / 2)).map (fun p => p.2)).sum /
           ((c8l1.length / 2 : Nat) : ℚ)
         let sa := ((c8l1.drop (c8l1.length / 2)).map (fun p => p.2)).sum /
           ((c8l1.length - c8l1.length / 2 : Nat) : ℚ)
         if sa - fa > fa * (1 / 10) then TrendDirection.Increasing
         else if sa - fa < -(fa * (1 / 10)) then TrendDirection.Decreasing
         else TrendDirection.Stable)) :=
  ⟨⟨by decide, C8_trend_direction.1 c8l0 (by decide)⟩,
   ⟨by decide, C8_trend_direction.2.1 c8l1 (by decide)⟩⟩

/-! Claim C9: zero-division safety of the analysis means and averages. -/

/-- A document whose only transaction is a categorized debit of amount
zero, so the grand debit total is exactly zero. -/
def c9doc : FinancialData :=
  ⟨[], [mkTx 2024 1 5 ⟨false, 0, 2⟩ .Debit ("Misc".data)], [], []⟩

/-- Claim C9: the guarded divisions of the analysis engine yield zero
instead of faulting: the average of an empty slice is zero; when the
grand total of debit amounts is zero every category row reports
percentage zero; and a trend query over zero months yields, for every
returned row, an empty monthly series with average monthly spending
zero. -/
theorem C9_zero_division_safety :
    (calculate_average [] = 0) ∧
    (∀ (data : FinancialData),
      sumAmounts (debitsOf data.transactions) = 0 →
      ∀ e, e ∈ analyze_categories data → e.percentage_of_total = 0) ∧
    (∀ (data : FinancialData) (now : DateTime),
      ∀ tr, tr ∈ analyze_spending_trends data now 0 →
        tr.monthly_amounts = [] ∧ tr.average_monthly = 0) := by
  refine ⟨rfl, ?_, ?_⟩
  · intro data hz e he
    have htot : (categoryTotals data.transactions).2 =
        sumAmounts (debitsOf data.transactions) := by
      rw [show categoryTotals data.transactions =
        data.transactions.foldl categoryStep ([], 0) from rfl]
      rw [categoryStep_foldl_total]
      simp
    rw [analyze_categories_eq] at he
    have he2 := (sortByTotalDesc_perm _).mem_iff.mp he
    rcases List.mem_map.mp he2 with ⟨p, _, hfe⟩
    subst hfe
    show (if 0 < (categoryTotals data.transactions).2
        then p.2.1 / (categoryTotals data.transactions).2 * 100 else 0) = 0
    rw [htot, hz, if_neg (lt_irrefl 0)]
  · intro data now tr htr
    rcases List.mem_map.mp htr with ⟨c, _, hfc⟩
    subst hfc
    exact ⟨rfl, rfl⟩

/-- Witness for C9: the trend-row guarantee applied to the zero-month
query on the zero-amount document, whose single row is concrete. -/
theorem C9_zero_division_safety_witness :
    sumAmounts (debitsOf c9doc.transactions) = 0 ∧
    ((⟨("Misc".data), [], .Stable, 0⟩ : SpendingTrend).monthly_amounts = [] ∧
     (⟨("Misc".data), [], .Stable, 0⟩ : SpendingTrend).average_monthly = 0) := by
  constructor
  · norm_num [sumAmounts, debitsOf, c9doc, mkTx, Transaction.new, Dec.toRat]
  · exact C9_zero_division_safety.2.2 c9doc epoch
      (⟨("Misc".data), [], .Stable, 0⟩ : SpendingTrend)
      (by rw [show analyze_spending_trends c9doc epoch 0 =
            [(⟨("Misc".data), [], .Stable, 0⟩ : SpendingTrend)] from rfl]
          exact List.mem_cons_self _ _)

/-! Claim C1: the decode-encode-decode round trip.  The development first
isolates the cleanliness every decoder-produced field enjoys (newline-free
content with no trailing whitespace, in-capacity amounts, valid dates),
then shows the exporter emits lines that reparse to the same fields, and
finally runs the document scanner over the exported blocks. -/

/-- The final character is not whitespace (vacuously true when empty). -/
def trailClean (s : Str) : Bool :=
  match s.getLast? with
  | some c => !isWSChar c
  | none => true

/-- A stored field payload as the decoder leaves it: free of newlines and
with no trailing whitespace, so the exported tag line reparses to it. -/
def fieldClean (s : Str) : Bool := !s.contains '\n' && trailClean s

def optFieldClean : Option Str → Bool
  | some s => fieldClean s
  | none => true

/-- A calendar timestamp the export date format can reproduce. -/
def validDT (t : DateTime) : Bool :=
  decide (0 ≤ t.year) && decide (t.year ≤ 9999) && validYMD t.year t.month t.day

/-- Every decoder-produced transaction satisfies this: clean text fields,
a cleared sign bit with in-capacity mantissa and scale, a debit only with a
nonzero mantissa, a credit or debit kind, and a representable date. -/
def TxnClean (t : Transaction) : Bool :=
  optFieldClean t.payee && optFieldClean t.category && optFieldClean t.memo &&
  (t.amount.sign == false) && decide (t.amount.s ≤ 28) && decide (t.amount.m < 2 ^ 96) &&
  (t.transaction_type == TransactionType.Credit ||
    (t.transaction_type == TransactionType.Debit && t.amount.m != 0)) &&
  validDT t.date

/-- Every decoder-produced account satisfies this. -/
def AccClean (a : Account) : Bool :=
  fieldClean a.name && optFieldClean a.institution

theorem ne_nl_of_not_ws {c : Char} (h : isWSChar c = false) : c ≠ '\n' := by
  intro hc
  subst hc
  simp [isWSChar] at h

theorem trailClean_of_no_ws (s : Str) (h : ∀ c ∈ s, isWSChar c = false) :
    trailClean s = true := by
  unfold trailClean
  cases hl : s.getLast? with
  | none => rfl
  | some c => simp [h c (List.mem_of_getLast?_eq_some hl)]

theorem trailClean_cons (tag : Char) (p : Str) (htag : isWSChar tag = false)
    (hp : trailClean p = true) : trailClean (tag :: p) = true := by
  cases p with
  | nil => simp [trailClean, htag]
  | cons b u =>
    unfold trailClean at hp ⊢
    rw [List.getLast?_cons_cons]
    exact hp

theorem trailClean_tail (s : Str) (h : trailClean s = true) : trailClean s.tail = true := by
  cases s with
  | nil => rfl
  | cons a t =>
    cases t with
    | nil => rfl
    | cons b u =>
      unfold trailClean at h ⊢
      rw [List.getLast?_cons_cons] at h
      exact h

/-- str::trim leaves a run alone when it neither starts nor ends with
whitespace. -/
theorem trim_eq_self_of_ends (s : Str)
    (h1 : ∀ c, s.head? = some c → isWSChar c = false)
    (h2 : trailClean s = true) : trim s = s := by
  have hd : s.dropWhile isWSChar = s := by
    cases s with
    | nil => rfl
    | cons c rest => rw [List.dropWhile_cons, if_neg (by simp [h1 c rfl])]
  rw [trim, hd]
  have h3 : s.reverse.dropWhile isWSChar = s.reverse := by
    cases hrev : s.reverse with
    | nil => rfl
    | cons c rest =>
      have hc : s.getLast? = some c := by
        rw [← List.head?_reverse, hrev, List.head?_cons]
      unfold trailClean at h2
      rw [hc] at h2
      rw [List.dropWhile_cons, if_neg (by simpa using h2)]
  rw [h3, List.reverse_reverse]

/-- A tag line of the exporter reparses to itself under trim. -/
theorem trim_tag_line (tag : Char) (p : Str) (htag : isWSChar tag = false)
    (hp : trailClean p = true) : trim (tag :: p) = tag :: p := by
  apply trim_eq_self_of_ends
  · intro c hc
    rw [List.head?_cons, Option.some.injEq] at hc
    subst hc
    exact htag
  · exact trailClean_cons tag p htag hp

theorem mem_trim {c : Char} {l : Str} (h : c ∈ trim l) : c ∈ l := by
  rw [trim, List.mem_reverse] at h
  have h1 := (List.dropWhile_sublist isWSChar).subset h
  rw [List.mem_reverse] at h1
  exact (List.dropWhile_sublist isWSChar).subset h1

theorem trailClean_trim (l : Str) : trailClean (trim l) = true := by
  unfold trailClean
  rw [show (trim l).getLast? =
      ((l.dropWhile isWSChar).reverse.dropWhile isWSChar).head? from by
    rw [← List.head?_reverse, trim, List.reverse_reverse]]
  cases hh : ((l.dropWhile isWSChar).reverse.dropWhile isWSChar).head? with
  | none => rfl
  | some c =>
    have : isWSChar c = false := by
      have := List.head?_dropWhile_not isWSChar (l.dropWhile isWSChar).reverse
      rw [hh] at this
      simpa using this
    simp [this]

theorem fieldClean_trim_tail (l : Str) (h : ¬ '\n' ∈ l) : fieldClean (trim l).tail = true := by
  rw [fieldClean, Bool.and_eq_true]
  constructor
  · have hmem : ¬ '\n' ∈ (trim l).tail := fun hc =>
      h (mem_trim ((List.tail_sublist (trim l)).subset hc))
    have hnc : (trim l).tail.contains '\n' = false := by simpa using hmem
    rw [hnc]
    rfl
  · exact trailClean_tail _ (trailClean_trim l)

/-! Inversion of the line splitter on exporter output: joining newline-free
lines with trailing newlines and splitting again is the identity. -/

theorem splitNL_cons_ne (c : Char) (t : Str) (hc : ¬ c = '\n') :
    splitNL (c :: t) =
      (match splitNL t with
       | l :: ls => (c :: l) :: ls
       | [] => [[c]]) := by
  rw [splitNL]
  exact fun h => hc h

theorem splitNL_append_nl (l : Str) (rest : Str) (hl : ¬ '\n' ∈ l) :
    splitNL (l ++ '\n' :: rest) = l :: splitNL rest := by
  induction l with
  | nil => simp [splitNL]
  | cons c cs ih =>
    have hc : ¬ c = '\n' := fun h => hl (by simp [h])
    have hcs : ¬ '\n' ∈ cs := fun h => hl (by simp [h])
    rw [List.cons_append, splitNL_cons_ne c _ hc, ih hcs]

theorem splitNL_joinNL (ls : List Str) (h : ∀ l ∈ ls, ¬ '\n' ∈ l) :
    splitNL (joinNL ls) = ls ++ [[]] := by
  induction ls with
  | nil => rfl
  | cons l ls ih =>
    have hjoin : joinNL (l :: ls) = l ++ '\n' :: joinNL ls := by
      simp [joinNL, List.flatMap_cons]
    rw [hjoin, splitNL_append_nl l _ (h l (by simp)),
      ih (fun x hx => h x (by simp [hx]))]
    rfl

theorem dropLastEmpty_append (ls : List Str) : dropLastEmpty (ls ++ [[]]) = ls := by
  unfold dropLastEmpty
  rw [List.reverse_append]
  simp

theorem stripCR_of_trailClean (l : Str) (h : trailClean l = true) : stripCR l = l := by
  unfold stripCR
  cases hrev : l.reverse with
  | nil => rfl
  | cons c rest =>
    have hc : l.getLast? = some c := by
      rw [← List.head?_reverse, hrev, List.head?_cons]
    unfold trailClean at h
    rw [hc] at h
    have hcr : c ≠ '\r' := by
      intro hcr
      subst hcr
      simp [isWSChar] at h
    split
    · rename_i rs heq
      rw [heq] at hrev
      have hlast : l.getLast? = some '\r' := by
        rw [← List.head?_reverse, hrev, List.head?_cons]
      rw [hc] at hlast
      exact absurd (Option.some.inj hlast) hcr
    · rfl

theorem linesOf_joinNL (ls : List Str)
    (h : ∀ l ∈ ls, ¬ '\n' ∈ l ∧ trailClean l = true) :
    linesOf (joinNL ls) = ls := by
  rw [linesOf, splitNL_joinNL ls (fun l hl => (h l hl).1), dropLastEmpty_append]
  have hmap : ls.map stripCR = ls.map id :=
    List.map_congr_left (fun l hl => stripCR_of_trailClean l (h l hl).2)
  rw [hmap, List.map_id]

/-! Character facts about the exported lines. -/

theorem formatMDY_no_ws (t : DateTime) (hy0 : 0 ≤ t.year) :
    ∀ c ∈ formatMDY t, isWSChar c = false := by
  intro c hc
  rw [formatMDY, intChars, if_neg (by omega : ¬ t.year < 0)] at hc
  rcases List.mem_append.mp hc with h1 | h2
  · rcases List.mem_append.mp h1 with h3 | h4
    · exact (natChars_char_facts h3).2.2.1
    · rcases List.mem_cons.mp h4 with h5 | h6
      · subst h5
        decide
      · exact (natChars_char_facts h6).2.2.1
  · rcases List.mem_cons.mp h2 with h7 | h8
    · subst h7
      decide
    · exact (natChars_char_facts h8).2.2.1

theorem render_no_ws (d : Dec) : ∀ c ∈ Dec.render d, isWSChar c = false := by
  intro c hc
  simp only [Dec.render] at hc
  rcases List.mem_append.mp hc with hc1 | hc2
  · rcases List.mem_append.mp hc1 with hsn | hip
    · by_cases hsign : d.sign
      · rw [if_pos hsign] at hsn
        rw [List.mem_singleton] at hsn
        subst hsn
        decide
      · rw [if_neg hsign] at hsn
        simp at hsn
    · exact (natChars_char_facts (List.take_subset _ _ hip)).2.2.1
  · by_cases h0 : d.s = 0
    · rw [if_pos h0] at hc2
      simp at hc2
    · rw [if_neg h0] at hc2
      rcases List.mem_cons.mp hc2 with h | h
      · subst h
        decide
      · exact (natChars_char_facts (List.drop_subset _ _ h)).2.2.1

theorem account_type_to_qif_no_ws (ty : AccountType) :
    ∀ c ∈ account_type_to_qif ty, isWSChar c = false := by
  cases ty
  case Other tag => exact (by decide : ∀ c ∈ ("Bank".data : Str), isWSChar c = false)
  all_goals decide

theorem Dec.abs_of_sign_false (d : Dec) (h : d.sign = false) : d.abs = d := by
  obtain ⟨sgn, m, s⟩ := d
  simp only at h
  subst h
  rfl

theorem Dec.abs_neg_of_sign_false (d : Dec) (h : d.sign = false) : d.neg.abs = d := by
  obtain ⟨sgn, m, s⟩ := d
  simp only at h
  subst h
  rfl

/-- The components of transaction cleanliness. -/
theorem TxnClean_parts (t : Transaction) (hc : TxnClean t = true) :
    optFieldClean t.payee = true ∧ optFieldClean t.category = true ∧
    optFieldClean t.memo = true ∧ t.amount.sign = false ∧
    t.amount.s ≤ 28 ∧ t.amount.m < 2 ^ 96 ∧
    (t.transaction_type = .Credit ∨ (t.transaction_type = .Debit ∧ t.amount.m ≠ 0)) ∧
    0 ≤ t.date.year ∧ t.date.year ≤ 9999 ∧
    validYMD t.date.year t.date.month t.date.day = true := by
  simp only [TxnClean, validDT, Bool.and_eq_true, Bool.or_eq_true, beq_iff_eq,
    bne_iff_ne, decide_eq_true_eq] at hc
  tauto

/-! The transaction field loop over one exported record. -/

theorem txnFieldsLoop_cons_cont (l : Str) (rest : List Str) (st st2 : TxnFields)
    (h : txnStep (trim l) st = .cont st2) :
    txnFieldsLoop (l :: rest) st = txnFieldsLoop rest st2 := by
  simp only [txnFieldsLoop, h]

theorem txnStep_date (dt : DateTime) (st : TxnFields)
    (hv : validYMD dt.year dt.month dt.day = true) (hy0 : 0 ≤ dt.year) (hy : dt.year ≤ 9999) :
    txnStep (trim ('D' :: formatMDY dt)) st =
      .cont { st with date := some ⟨dt.year, dt.month, dt.day, 0⟩ } := by
  have htc : trailClean (formatMDY dt) = true :=
    trailClean_of_no_ws _ (formatMDY_no_ws dt hy0)
  rw [trim_tag_line 'D' _ (by decide) htc]
  simp [txnStep, parse_qif_date_formatMDY ⟨dt.year, dt.month, dt.day, dt.secs⟩ hv hy0 hy]

theorem txnStep_amount (a : Dec) (st : TxnFields) (hs : a.s ≤ 28) (hm : a.m < 2 ^ 96) :
    txnStep (trim ('T' :: Dec.render a)) st = .cont { st with amount := a } := by
  have hnws := render_no_ws a
  rw [trim_tag_line 'T' _ (by decide) (trailClean_of_no_ws _ hnws)]
  have hparse : Dec.fromChars? (trim (Dec.render a)) = some a := by
    rw [trim_of_no_ws hnws]
    exact Dec.fromChars_render a hs hm
  simp [txnStep, hparse]

theorem txnStep_payee (p : Str) (st : TxnFields) (hp : trailClean p = true) :
    txnStep (trim ('P' :: p)) st = .cont { st with payee := some p, description := p } := by
  rw [trim_tag_line 'P' p (by decide) hp]
  simp [txnStep]

theorem txnStep_category (c : Str) (st : TxnFields) (hp : trailClean c = true) :
    txnStep (trim ('L' :: c)) st = .cont { st with category := some c } := by
  rw [trim_tag_line 'L' c (by decide) hp]
  simp [txnStep]

theorem txnStep_memo (m : Str) (st : TxnFields) (hp : trailClean m = true) :
    txnStep (trim ('M' :: m)) st = .cont { st with memo := some m, description := m } := by
  rw [trim_tag_line 'M' m (by decide) hp]
  simp [txnStep]

theorem txnStep_cleared (st : TxnFields) :
    txnStep (trim ['C', '*']) st = .cont { st with cleared := true } := rfl

theorem txnFieldsLoop_caret (rest : List Str) (st : TxnFields) :
    txnFieldsLoop (['^'] :: rest) st = (.ok st, rest) := rfl

/-- The optional-field lines of one exported record, one tag line when the
field is present. -/
def optTagLines (tag : Char) : Option Str → List Str
  | some s => [tag :: s]
  | none => []

def payeeUpd : Option Str → TxnFields → TxnFields
  | some p, st => { st with payee := some p, description := p }
  | none, st => st

def categoryUpd : Option Str → TxnFields → TxnFields
  | some c, st => { st with category := some c }
  | none, st => st

def memoUpd : Option Str → TxnFields → TxnFields
  | some m, st => { st with memo := some m, description := m }
  | none, st => st

theorem txnFieldsLoop_payee_block (o : Option Str) (rest : List Str) (st : TxnFields)
    (ho : optFieldClean o = true) :
    txnFieldsLoop (optTagLines 'P' o ++ rest) st = txnFieldsLoop rest (payeeUpd o st) := by
  cases o with
  | none => rfl
  | some p =>
    have hp : trailClean p = true := by
      simp only [optFieldClean, fieldClean, Bool.and_eq_true] at ho
      exact ho.2
    exact txnFieldsLoop_cons_cont _ _ _ _ (txnStep_payee p st hp)

theorem txnFieldsLoop_category_block (o : Option Str) (rest : List Str) (st : TxnFields)
    (ho : optFieldClean o = true) :
    txnFieldsLoop (optTagLines 'L' o ++ rest) st = txnFieldsLoop rest (categoryUpd o st) := by
  cases o with
  | none => rfl
  | some c =>
    have hp : trailClean c = true := by
      simp only [optFieldClean, fieldClean, Bool.and_eq_true] at ho
      exact ho.2
    exact txnFieldsLoop_cons_cont _ _ _ _ (txnStep_category c st hp)

theorem txnFieldsLoop_memo_block (o : Option Str) (rest : List Str) (st : TxnFields)
    (ho : optFieldClean o = true) :
    txnFieldsLoop (optTagLines 'M' o ++ rest) st = txnFieldsLoop rest (memoUpd o st) := by
  cases o with
  | none => rfl
  | some m =>
    have hp : trailClean m = true := by
      simp only [optFieldClean, fieldClean, Bool.and_eq_true] at ho
      exact ho.2
    exact txnFieldsLoop_cons_cont _ _ _ _ (txnStep_memo m st hp)

theorem txnFieldsLoop_cleared_block (b : Bool) (rest : List Str) (st : TxnFields) :
    txnFieldsLoop ((if b then [['C', '*']] else []) ++ rest) st =
      txnFieldsLoop rest (if b then { st with cleared := true } else st) := by
  cases b with
  | false => rfl
  | true => exact txnFieldsLoop_cons_cont _ _ _ _ (txnStep_cleared st)

/-- The description the reimported transaction carries: the memo if present,
else the payee, else the Unknown default, because the payee and memo lines
each overwrite the description in scan order. -/
def exportDesc (t : Transaction) : Str :=
  match t.memo with
  | some m => m
  | none =>
    match t.payee with
    | some p => p
    | none => "Unknown".data

theorem txnFieldsLoop_export (t : Transaction) (hc : TxnClean t = true) (more : List Str) :
    txnFieldsLoop (export_transaction_lines t ++ more) TxnFields.start =
      (.ok ⟨some ⟨t.date.year, t.date.month, t.date.day, 0⟩,
            (match t.transaction_type with | .Debit => t.amount.neg | _ => t.amount),
            exportDesc t, t.payee, t.category, t.memo, t.cleared⟩, more) := by
  obtain ⟨hp, hcat, hmemo, hsign, hs28, hm96, hkind, hy0, hy, hv⟩ := TxnClean_parts t hc
  have hlist : export_transaction_lines t ++ more =
      ('D' :: formatMDY t.date) ::
      ('T' :: Dec.render (match t.transaction_type with
        | .Debit => t.amount.neg | _ => t.amount)) ::
      (optTagLines 'P' t.payee ++
       (optTagLines 'L' t.category ++
        (optTagLines 'M' t.memo ++
         ((if t.cleared then [['C', '*']] else []) ++ (['^'] :: more))))) := by
    rcases hpy : t.payee with _ | p <;> rcases hct : t.category with _ | c <;>
      rcases hmm2 : t.memo with _ | m <;>
      simp [export_transaction_lines, optTagLines, List.append_assoc, hpy, hct, hmm2]
  have hs2 : (match t.transaction_type with
      | .Debit => t.amount.neg | _ => t.amount).s ≤ 28 := by
    cases t.transaction_type <;> simpa [Dec.neg] using hs28
  have hm2 : (match t.transaction_type with
      | .Debit => t.amount.neg | _ => t.amount).m < 2 ^ 96 := by
    cases t.transaction_type <;> simpa [Dec.neg] using hm96
  rw [hlist]
  rw [txnFieldsLoop_cons_cont _ _ _ _ (txnStep_date t.date TxnFields.start hv hy0 hy)]
  rw [txnFieldsLoop_cons_cont _ _ _ _ (txnStep_amount _ _ hs2 hm2)]
  rw [txnFieldsLoop_payee_block t.payee _ _ hp]
  rw [txnFieldsLoop_category_block t.category _ _ hcat]
  rw [txnFieldsLoop_memo_block t.memo _ _ hmemo]
  rw [txnFieldsLoop_cleared_block t.cleared]
  rw [txnFieldsLoop_caret]
  rcases hpy : t.payee with _ | p <;> rcases hct : t.category with _ | c <;>
    rcases hmm2 : t.memo with _ | m <;> rcases hcl : t.cleared with _ | _ <;>
    simp [exportDesc, TxnFields.start, payeeUpd, categoryUpd, memoUpd,
      hpy, hct, hmm2, hcl]

/-- Reparsing one exported transaction record: the record consumes exactly
its own lines and rebuilds the claimed fields, with the sign recombined into
the kind and the date at midnight of the same civil day. -/
theorem parse_single_export (now2 : DateTime) (id aid : Nat) (t : Transaction)
    (hc : TxnClean t = true) (more : List Str) :
    parse_single_transaction now2 id aid (export_transaction_lines t ++ more) =
      (.ok { Transaction.new id aid ⟨t.date.year, t.date.month, t.date.day, 0⟩ t.amount
               (exportDesc t) t.transaction_type now2 with
             payee := t.payee, category := t.category, memo := t.memo,
             cleared := t.cleared }, more) := by
  obtain ⟨hp, hcat, hmemo, hsign, hs28, hm96, hkind, hy0, hy, hv⟩ := TxnClean_parts t hc
  simp only [parse_single_transaction, txnFieldsLoop_export t hc more]
  rcases hkind with hk | ⟨hk, hm0⟩
  · rw [hk]
    have habs : t.amount.abs = t.amount := Dec.abs_of_sign_false _ hsign
    have hnn : t.amount.isNonneg = true := by
      rw [Dec.isNonneg, hsign]
      rfl
    simp [hnn, habs, Transaction.new]
  · rw [hk]
    have habs : t.amount.neg.abs = t.amount := Dec.abs_neg_of_sign_false _ hsign
    have hnn : t.amount.neg.isNonneg = false := by
      rw [Dec.neg, Dec.isNonneg, hsign]
      simpa using hm0
    simp [hnn, habs, Transaction.new]

/-! The transaction section loop over a run of exported records. -/

/-- The per-transaction field correspondence of the round trip: magnitude,
kind, payee, category, memo and cleared flag survive, and the date is the
same civil day. -/
def TxMatch (t u : Transaction) : Prop :=
  u.amount = t.amount ∧ u.transaction_type = t.transaction_type ∧
  u.payee = t.payee ∧ u.category = t.category ∧ u.memo = t.memo ∧
  u.cleared = t.cleared ∧
  u.date.year = t.date.year ∧ u.date.month = t.date.month ∧ u.date.day = t.date.day

theorem flatMap_export_length (ts : List Transaction) :
    ts.length ≤ (ts.flatMap export_transaction_lines).length := by
  induction ts with
  | nil => simp
  | cons t ts ih =>
    rw [List.flatMap_cons, List.length_append, List.length_cons]
    have h1 : 1 ≤ (export_transaction_lines t).length := by
      rw [export_transaction_lines]
      simp
    omega

theorem parse_transaction_section_export (now2 : DateTime) (aid : Nat) :
    ∀ (ts : List Transaction) (fuel nid : Nat) (more : List Str),
      (∀ t ∈ ts, TxnClean t = true) →
      ts.length ≤ fuel →
      (match more with
       | [] => True
       | l :: _ => ((trim l).isEmpty || startsTok ['!'] (trim l)) = true) →
      ∃ us, parse_transaction_section now2 aid fuel
          (ts.flatMap export_transaction_lines ++ more) nid =
        (us, more, nid + ts.length) ∧ List.Forall₂ TxMatch ts us := by
  intro ts
  induction ts with
  | nil =>
    intro fuel nid more hcl hfuel hstop
    refine ⟨[], ?_, List.Forall₂.nil⟩
    rw [List.flatMap_nil, List.nil_append]
    cases more with
    | nil => cases fuel <;> simp [parse_transaction_section]
    | cons l rest =>
      cases fuel with
      | zero => simp [parse_transaction_section]
      | succ f =>
        rw [parse_transaction_section, if_pos hstop]
        simp
  | cons t ts ih =>
    intro fuel nid more hcl hfuel hstop
    cases fuel with
    | zero => simp at hfuel
    | succ f =>
      obtain ⟨hp, hcat, hmemo, hsign, hs28, hm96, hkind, hy0, hy, hv⟩ :=
        TxnClean_parts t (hcl t (by simp))
      have hlines : (t :: ts).flatMap export_transaction_lines ++ more =
          export_transaction_lines t ++ (ts.flatMap export_transaction_lines ++ more) := by
        rw [List.flatMap_cons, List.append_assoc]
      obtain ⟨tl, htl⟩ : ∃ tl,
          export_transaction_lines t ++ (ts.flatMap export_transaction_lines ++ more) =
            ('D' :: formatMDY t.date) :: tl :=
        ⟨_, by rw [export_transaction_lines, List.cons_append]⟩
      have hguard : ((trim ('D' :: formatMDY t.date)).isEmpty ||
          startsTok ['!'] (trim ('D' :: formatMDY t.date))) = false := by
        rw [trim_tag_line 'D' _ (by decide) (trailClean_of_no_ws _ (formatMDY_no_ws t.date hy0))]
        simp [startsTok]
      have hps : parse_single_transaction now2 nid aid
          (('D' :: formatMDY t.date) :: tl) =
          (.ok { Transaction.new nid aid ⟨t.date.year, t.date.month, t.date.day, 0⟩ t.amount
                   (exportDesc t) t.transaction_type now2 with
                 payee := t.payee, category := t.category, memo := t.memo,
                 cleared := t.cleared },
           ts.flatMap export_transaction_lines ++ more) := by
        rw [← htl]
        exact parse_single_export now2 nid aid t (hcl t (by simp)) _
      obtain ⟨us, hr, hforall⟩ := ih f (nid + 1) more
        (fun x hx => hcl x (by simp [hx])) (by simp at hfuel; omega) hstop
      refine ⟨{ Transaction.new nid aid ⟨t.date.year, t.date.month, t.date.day, 0⟩ t.amount
                  (exportDesc t) t.transaction_type now2 with
                payee := t.payee, category := t.category, memo := t.memo,
                cleared := t.cleared } :: us, ?_, ?_⟩
      · rw [hlines, htl, parse_transaction_section, if_neg (by rw [hguard]; simp)]
        have hnat : nid + 1 + ts.length = nid + (ts.length + 1) := by omega
        simp only [hps, hr, List.length_cons, hnat]
      · exact List.Forall₂.cons ⟨rfl, rfl, rfl, rfl, rfl, rfl, rfl, rfl, rfl⟩ hforall

/-! The account section over one exported account record. -/

def instUpd : Option Str → AccFields → AccFields
  | some s, st => { st with desc := some s }
  | none, st => st

theorem accStep_name (nm : Str) (st : AccFields) :
    accStep ('N' :: nm) st = .cont { st with name := nm } := by
  simp [accStep]

theorem accStep_type (s : Str) (st : AccFields) :
    accStep ('T' :: s) st = .cont { st with ty := parse_account_type s } := by
  simp [accStep]

theorem accStep_desc (s : Str) (st : AccFields) :
    accStep ('D' :: s) st = .cont { st with desc := some s } := by
  simp [accStep]

theorem accountFieldsLoop_tag (tag : Char) (p : Str) (rest : List Str) (st st2 : AccFields)
    (htag : isWSChar tag = false) (hne : ¬ tag = '!') (hp : trailClean p = true)
    (hstep : accStep (tag :: p) st = .cont st2) :
    accountFieldsLoop ((tag :: p) :: rest) st = accountFieldsLoop rest st2 := by
  have hstart : startsTok ['!'] (tag :: p) = false := by
    have hne2 : ¬ '!' = tag := fun h => hne h.symm
    simp [startsTok, hne2]
  simp only [accountFieldsLoop, trim_tag_line tag p htag hp]
  rw [if_neg (by simp [hstart]), hstep]

theorem accountFieldsLoop_inst_block (o : Option Str) (rest : List Str) (st : AccFields)
    (ho : optFieldClean o = true) :
    accountFieldsLoop (optTagLines 'D' o ++ rest) st =
      accountFieldsLoop rest (instUpd o st) := by
  cases o with
  | none => rfl
  | some s =>
    have hp : trailClean s = true := by
      simp only [optFieldClean, fieldClean, Bool.and_eq_true] at ho
      exact ho.2
    exact accountFieldsLoop_tag 'D' s _ _ _ (by decide) (by decide) hp (accStep_desc s st)

theorem accountFieldsLoop_caret (rest : List Str) (st : AccFields) :
    accountFieldsLoop (['^'] :: rest) st = (st, rest) := rfl

/-- The lines of one exported account record after its sentinel, ahead of
whatever follows. -/
def accRecLines (a : Account) (more : List Str) : List Str :=
  ('N' :: a.name) :: ('T' :: account_type_to_qif a.account_type) ::
    (optTagLines 'D' a.institution ++ (['^'] :: more))

/-- Reparsing one exported account record: the record consumes exactly its
own lines; the rebuilt account keeps the name and institution, maps the
type through the export tag, and takes the fresh id. -/
theorem parse_account_export (now2 : DateTime) (id : Nat) (a : Account)
    (hA : AccClean a = true) (more : List Str) :
    parse_account_section now2 id (accRecLines a more) =
      ({ Account.new id a.name (parse_account_type (account_type_to_qif a.account_type))
           Dec.zero ("USD".data) now2 with
         institution := a.institution }, more) := by
  rw [accRecLines]
  have hnm : trailClean a.name = true := by
    simp only [AccClean, fieldClean, Bool.and_eq_true] at hA
    exact hA.1.2
  have hinst : optFieldClean a.institution = true := by
    simp only [AccClean, Bool.and_eq_true] at hA
    exact hA.2
  have hloop : accountFieldsLoop
      (('N' :: a.name) :: ('T' :: account_type_to_qif a.account_type) ::
        (optTagLines 'D' a.institution ++ (['^'] :: more)))
      ⟨"Unknown Account".data, .Other ("Unknown".data), none⟩ =
      (⟨a.name, parse_account_type (account_type_to_qif a.account_type),
        a.institution⟩, more) := by
    rw [accountFieldsLoop_tag 'N' a.name _ _ _ (by decide) (by decide) hnm
      (accStep_name a.name _)]
    rw [accountFieldsLoop_tag 'T' _ _ _ _ (by decide) (by decide)
      (trailClean_of_no_ws _ (account_type_to_qif_no_ws a.account_type))
      (accStep_type _ _)]
    rw [accountFieldsLoop_inst_block a.institution _ _ hinst]
    rw [accountFieldsLoop_caret]
    rcases hin : a.institution with _ | i <;> simp [instUpd, hin]
  simp only [parse_account_section, hloop]

theorem parse_account_export_snd (now2 : DateTime) (id : Nat) (a : Account)
    (hA : AccClean a = true) (more : List Str) :
    (parse_account_section now2 id (accRecLines a more)).2 = more := by
  rw [parse_account_export now2 id a hA more]

/-! The document scan over the exported blocks. -/

/-- One account of the exported document: the account record, a blank
separator, and, when the account owns transactions, its transaction section
and another blank separator. -/
def accountBlock (D : FinancialData) (a : Account) : List Str :=
  export_account_lines a ++ [[]] ++
    (let ts := D.get_account_transactions a.id
     if ts.isEmpty then [] else export_transactions_lines ts a ++ [[]])

theorem export_lines_eq (D : FinancialData) :
    export_lines D = D.accounts.flatMap (accountBlock D) := rfl

theorem export_account_lines_shape (a : Account) (more : List Str) :
    export_account_lines a ++ more = ("!Account".data) :: accRecLines a more := by
  rcases hin : a.institution with _ | i <;>
    simp [export_account_lines, accRecLines, optTagLines, hin, List.append_assoc]

theorem export_transactions_lines_shape (ts : List Transaction) (a : Account)
    (more : List Str) :
    (export_transactions_lines ts a ++ [[]]) ++ more =
      (("!Type:".data) ++ account_type_to_qif a.account_type) ::
        (ts.flatMap export_transaction_lines ++ ([] :: more)) := by
  simp [export_transactions_lines, List.append_assoc]

theorem type_line_no_ws (ty : AccountType) :
    ∀ c ∈ ("!Type:".data) ++ account_type_to_qif ty, isWSChar c = false := by
  intro c hc
  rcases List.mem_append.mp hc with h | h
  · exact (by decide : ∀ c ∈ ("!Type:".data : Str), isWSChar c = false) c h
  · exact account_type_to_qif_no_ws ty c h

theorem startsTok_account_type_line (z : Str) :
    startsTok ("!Account".data) (("!Type:".data) ++ z) = false := by
  simp [show ("!Account".data) = '!' :: 'A' :: 'c' :: 'c' :: 'o' :: 'u' :: 'n' :: 't' :: [] from rfl,
    show ("!Type:".data) = '!' :: 'T' :: 'y' :: 'p' :: 'e' :: ':' :: [] from rfl, startsTok]

theorem startsTok_type_line (z : Str) :
    startsTok ("!Type:".data) (("!Type:".data) ++ z) = true := by
  simp [show ("!Type:".data) = '!' :: 'T' :: 'y' :: 'p' :: 'e' :: ':' :: [] from rfl, startsTok]

theorem foldl_add_transaction_transactions (ts : List Transaction) :
    ∀ d : FinancialData, (ts.foldl FinancialData.add_transaction d).transactions =
      d.transactions ++ ts := by
  induction ts with
  | nil => intro d; simp
  | cons t ts ih =>
    intro d
    rw [List.foldl_cons, ih]
    simp [FinancialData.add_transaction]

theorem qifLines_account_step (now2 : DateTime) (f : Nat) (l : Str) (rest : List Str)
    (d : FinancialData) (cur : Option Account) (amap : List (Str × Nat)) (n : Nat)
    (b : Account) (rest2 : List Str)
    (hacc : startsTok ("!Account".data) (trim l) = true)
    (hpar : parse_account_section now2 n rest = (b, rest2)) :
    qifLines now2 (f + 1) (l :: rest) ⟨d, cur, amap, n⟩ =
      qifLines now2 f rest2 ⟨d.add_account b, some b, (b.name, b.id) :: amap, n + 1⟩ := by
  rw [qifLines, if_pos hacc]
  simp [hpar]

theorem qifLines_type_step (now2 : DateTime) (f : Nat) (l : Str) (rest : List Str)
    (d : FinancialData) (cur : Option Account) (amap : List (Str × Nat)) (n : Nat)
    (b : Account) (us : List Transaction) (rest2 : List Str) (n2 : Nat)
    (hcur : cur = some b)
    (hna : startsTok ("!Account".data) (trim l) = false)
    (hty : startsTok ("!Type:".data) (trim l) = true)
    (hpar : parse_transaction_section now2 b.id f rest n = (us, rest2, n2)) :
    qifLines now2 (f + 1) (l :: rest) ⟨d, cur, amap, n⟩ =
      qifLines now2 f rest2 ⟨us.foldl FinancialData.add_transaction d, cur, amap, n2⟩ := by
  rw [qifLines, if_neg (by rw [hna]; simp), if_pos hty]
  simp [hcur, hpar]

theorem qifLines_skip_step (now2 : DateTime) (f : Nat) (l : Str) (rest : List Str)
    (st : QifState)
    (hna : startsTok ("!Account".data) (trim l) = false)
    (hnt : startsTok ("!Type:".data) (trim l) = false) :
    qifLines now2 (f + 1) (l :: rest) st = qifLines now2 f rest st := by
  rw [qifLines, if_neg (by rw [hna]; simp), if_neg (by rw [hnt]; simp)]

theorem accRecLines_length (a : Account) (m : List Str) :
    (accRecLines a m).length = (optTagLines 'D' a.institution).length + 3 + m.length := by
  simp [accRecLines]
  omega

theorem export_transactions_lines_length (ts : List Transaction) (a : Account) :
    (export_transactions_lines ts a).length =
      (ts.flatMap export_transaction_lines).length + 1 := by
  simp [export_transactions_lines]

/-! Lines produced by the line splitter never contain a newline, and the
section loops only ever leave suffixes of their input, so every line a
field is cut from is newline-free. -/

theorem splitNL_no_nl (s : Str) : ∀ l ∈ splitNL s, ¬ '\n' ∈ l := by
  induction s with
  | nil =>
    intro l hl
    rw [show splitNL [] = [[]] from rfl] at hl
    rw [List.mem_singleton] at hl
    subst hl
    simp
  | cons c rest ih =>
    by_cases hc : c = '\n'
    · subst hc
      intro l hl
      rw [show splitNL ('\n' :: rest) = [] :: splitNL rest from rfl] at hl
      rcases List.mem_cons.mp hl with rfl | hl
      · simp
      · exact ih l hl
    · intro l hl
      rw [splitNL_cons_ne c rest hc] at hl
      rcases hsp : splitNL rest with _ | ⟨l0, ls0⟩
      · rw [hsp] at hl
        rw [List.mem_singleton] at hl
        subst hl
        intro hm
        rw [List.mem_singleton] at hm
        exact hc hm.symm
      · rw [hsp] at hl
        rcases List.mem_cons.mp hl with rfl | hl
        · intro hm
          rcases List.mem_cons.mp hm with h | h
          · exact hc h.symm
          · exact ih l0 (by rw [hsp]; exact List.mem_cons_self _ _) h
        · exact ih l (by rw [hsp]; exact List.mem_cons_of_mem _ hl)

theorem dropLastEmpty_subset (ls : List Str) : ∀ l ∈ dropLastEmpty ls, l ∈ ls := by
  intro l hl
  rw [dropLastEmpty] at hl
  split at hl
  · rename_i rs heq
    have h2 : l ∈ ls.reverse := by
      rw [heq]
      exact List.mem_cons_of_mem _ (by rwa [List.mem_reverse] at hl)
    rwa [List.mem_reverse] at h2
  · exact hl

theorem mem_stripCR {c : Char} {l : Str} (h : c ∈ stripCR l) : c ∈ l := by
  rw [stripCR] at h
  split at h
  · rename_i rs heq
    have h2 : c ∈ l.reverse := by
      rw [heq]
      exact List.mem_cons_of_mem _ (by rwa [List.mem_reverse] at h)
    rwa [List.mem_reverse] at h2
  · exact h

theorem linesOf_no_nl (s : Str) : ∀ l ∈ linesOf s, ¬ '\n' ∈ l := by
  intro l hl
  rw [linesOf, List.mem_map] at hl
  obtain ⟨l0, hl0, rfl⟩ := hl
  exact fun hm =>
    splitNL_no_nl s l0 (dropLastEmpty_subset _ l0 hl0) (mem_stripCR hm)

theorem txnFieldsLoop_rest_suffix (ls : List Str) :
    ∀ st, (txnFieldsLoop ls st).2 <:+ ls := by
  induction ls with
  | nil => intro st; simp [txnFieldsLoop]
  | cons l rest ih =>
    intro st
    simp only [txnFieldsLoop]
    cases txnStep (trim l) st with
    | done => exact List.suffix_cons l rest
    | fail e => exact List.suffix_rfl
    | cont st2 => exact (ih st2).trans (List.suffix_cons l rest)

theorem accountFieldsLoop_rest_suffix (ls : List Str) :
    ∀ st, (accountFieldsLoop ls st).2 <:+ ls := by
  induction ls with
  | nil => intro st; simp [accountFieldsLoop]
  | cons l rest ih =>
    intro st
    simp only [accountFieldsLoop]
    split
    · exact List.suffix_rfl
    · cases accStep (trim l) st with
      | done => exact List.suffix_cons l rest
      | cont st2 => exact (ih st2).trans (List.suffix_cons l rest)

theorem parse_single_rest_suffix (now : DateTime) (id aid : Nat) (ls : List Str) :
    (parse_single_transaction now id aid ls).2 <:+ ls := by
  rw [parse_single_rest]
  exact txnFieldsLoop_rest_suffix ls _

theorem parse_account_section_rest_suffix (now : DateTime) (id : Nat) (ls : List Str) :
    (parse_account_section now id ls).2 <:+ ls := by
  simp only [parse_account_section]
  exact accountFieldsLoop_rest_suffix ls _

theorem parse_transaction_section_rest_suffix (now : DateTime) (aid : Nat) :
    ∀ (fuel : Nat) (ls : List Str) (nid : Nat),
      (parse_transaction_section now aid fuel ls nid).2.1 <:+ ls := by
  intro fuel
  induction fuel with
  | zero =>
    intro ls nid
    cases ls <;> simp [parse_transaction_section]
  | succ fuel ih =>
    intro ls nid
    cases ls with
    | nil => simp [parse_transaction_section]
    | cons l rest =>
      rw [parse_transaction_section]
      split
      · exact List.suffix_rfl
      · split
        · rename_i hg t rest2 h
          have h1 : rest2 <:+ l :: rest := by
            have h2 := parse_single_rest_suffix now nid aid (l :: rest)
            rw [h] at h2
            exact h2
          exact (ih rest2 (nid + 1)).trans h1
        · rename_i hg e rest2 h
          have h1 : rest2 <:+ l :: rest := by
            have h2 := parse_single_rest_suffix now nid aid (l :: rest)
            rw [h] at h2
            exact h2
          exact (ih rest2.tail nid).trans ((List.tail_suffix rest2).trans h1)

/-- The document scanner over a run of exported account blocks: every block
decodes, one fresh account per block, with the transactions of every block
appended in order and matching the exported ones field by field. -/
theorem qifLines_export_blocks (now2 : DateTime) (D : FinancialData)
    (hTx : ∀ t ∈ D.transactions, TxnClean t = true) :
    ∀ (fuel : Nat) (accs : List Account) (st : QifState),
      (∀ a ∈ accs, AccClean a = true) →
      (accs.flatMap (accountBlock D)).length ≤ fuel →
      ∃ D2 us,
        qifLines now2 fuel (accs.flatMap (accountBlock D)) st = .ok D2 ∧
        D2.accounts.length = st.data.accounts.length + accs.length ∧
        D2.transactions = st.data.transactions ++ us ∧
        List.Forall₂ TxMatch
          (accs.flatMap (fun a => D.get_account_transactions a.id)) us := by
  intro fuel
  induction fuel using Nat.strong_induction_on with
  | _ fuel ih =>
    intro accs st hA hfuel
    obtain ⟨d0, cur0, amap0, n0⟩ := st
    cases accs with
    | nil =>
      refine ⟨d0, [], ?_, by simp, by simp, List.Forall₂.nil⟩
      cases fuel <;> rfl
    | cons a accs2 =>
      have hAa : AccClean a = true := hA a (by simp)
      have hA2 : ∀ x ∈ accs2, AccClean x = true := fun x hx => hA x (by simp [hx])
      by_cases hemp : (D.get_account_transactions a.id).isEmpty = true
      · have h1 : accountBlock D a ++ accs2.flatMap (accountBlock D) =
            export_account_lines a ++ ([] :: accs2.flatMap (accountBlock D)) := by
          simp [accountBlock, hemp, List.append_assoc]
        have hsplit : (a :: accs2).flatMap (accountBlock D) =
            ("!Account".data) :: accRecLines a ([] :: accs2.flatMap (accountBlock D)) := by
          rw [List.flatMap_cons, h1, export_account_lines_shape]
        rw [hsplit] at hfuel ⊢
        rw [List.length_cons, accRecLines_length, List.length_cons] at hfuel
        cases fuel with
        | zero => exact absurd hfuel (by omega)
        | succ f =>
          obtain ⟨B, hB⟩ : ∃ B : Account, parse_account_section now2 n0
              (accRecLines a ([] :: accs2.flatMap (accountBlock D))) =
              (B, [] :: accs2.flatMap (accountBlock D)) :=
            ⟨_, parse_account_export now2 n0 a hAa _⟩
          rw [qifLines_account_step now2 f _ _ d0 cur0 amap0 n0 B _ (by decide) hB]
          cases f with
          | zero => exact absurd hfuel (by omega)
          | succ f2 =>
            rw [qifLines_skip_step now2 f2 _ _ _ (by decide) (by decide)]
            obtain ⟨D2, us, hq, hlen, htr, hfa⟩ := ih f2 (by omega) accs2
              ⟨d0.add_account B, some B, (B.name, B.id) :: amap0, n0 + 1⟩
              hA2 (by omega)
            refine ⟨D2, us, hq, ?_, ?_, ?_⟩
            · rw [hlen]
              simp [FinancialData.add_account]
              omega
            · exact htr
            · rw [List.flatMap_cons, List.isEmpty_iff.mp hemp, List.nil_append]
              exact hfa
      · have h1 : accountBlock D a ++ accs2.flatMap (accountBlock D) =
            export_account_lines a ++
              ([] :: ((export_transactions_lines (D.get_account_transactions a.id) a ++ [[]]) ++
                accs2.flatMap (accountBlock D))) := by
          simp [accountBlock, hemp, List.append_assoc]
        have hsplit : (a :: accs2).flatMap (accountBlock D) =
            ("!Account".data) :: accRecLines a
              ([] :: ((export_transactions_lines (D.get_account_transactions a.id) a ++ [[]]) ++
                accs2.flatMap (accountBlock D))) := by
          rw [List.flatMap_cons, h1, export_account_lines_shape]
        rw [hsplit] at hfuel ⊢
        rw [List.length_cons, accRecLines_length, List.length_cons, List.length_append,
          List.length_append, export_transactions_lines_length, List.length_cons] at hfuel
        have hlen0 : (D.get_account_transactions a.id).length ≤
            ((D.get_account_transactions a.id).flatMap export_transaction_lines).length :=
          flatMap_export_length _
        cases fuel with
        | zero => exact absurd hfuel (by omega)
        | succ f =>
          obtain ⟨B, hB⟩ : ∃ B : Account, parse_account_section now2 n0
              (accRecLines a
                ([] :: ((export_transactions_lines (D.get_account_transactions a.id) a ++ [[]]) ++
                  accs2.flatMap (accountBlock D)))) =
              (B, [] :: ((export_transactions_lines (D.get_account_transactions a.id) a ++ [[]]) ++
                accs2.flatMap (accountBlock D))) :=
            ⟨_, parse_account_export now2 n0 a hAa _⟩
          rw [qifLines_account_step now2 f _ _ d0 cur0 amap0 n0 B _ (by decide) hB]
          cases f with
          | zero => exact absurd hfuel (by omega)
          | succ f2 =>
            rw [qifLines_skip_step now2 f2 _ _ _ (by decide) (by decide)]
            rw [export_transactions_lines_shape]
            cases f2 with
            | zero => exact absurd hfuel (by omega)
            | succ f3 =>
              have hna : startsTok ("!Account".data)
                  (trim (("!Type:".data) ++ account_type_to_qif a.account_type)) = false := by
                rw [trim_of_no_ws (type_line_no_ws a.account_type)]
                exact startsTok_account_type_line _
              have hty : startsTok ("!Type:".data)
                  (trim (("!Type:".data) ++ account_type_to_qif a.account_type)) = true := by
                rw [trim_of_no_ws (type_line_no_ws a.account_type)]
                exact startsTok_type_line _
              obtain ⟨us1, hsec, hfa1⟩ := parse_transaction_section_export now2 B.id
                (D.get_account_transactions a.id) f3 (n0 + 1)
                ([] :: accs2.flatMap (accountBlock D))
                (fun t ht => hTx t (List.mem_of_mem_filter ht))
                (by omega)
                (show ((trim ([] : Str)).isEmpty || startsTok ['!'] (trim ([] : Str))) = true
                  by decide)
              rw [qifLines_type_step now2 f3
                (("!Type:".data) ++ account_type_to_qif a.account_type)
                ((D.get_account_transactions a.id).flatMap export_transaction_lines ++
                  ([] :: accs2.flatMap (accountBlock D)))
                (d0.add_account B) (some B) ((B.name, B.id) :: amap0) (n0 + 1)
                B us1 ([] :: accs2.flatMap (accountBlock D))
                (n0 + 1 + (D.get_account_transactions a.id).length)
                rfl hna hty hsec]
              cases f3 with
              | zero => exact absurd hfuel (by omega)
              | succ f4 =>
                rw [qifLines_skip_step now2 f4 _ _ _ (by decide) (by decide)]
                obtain ⟨D2, us2, hq, hlen, htr, hfa2⟩ := ih f4 (by omega) accs2
                  ⟨us1.foldl FinancialData.add_transaction (d0.add_account B),
                   some B, (B.name, B.id) :: amap0,
                   n0 + 1 + (D.get_account_transactions a.id).length⟩
                  hA2 (by omega)
                refine ⟨D2, us1 ++ us2, hq, ?_, ?_, ?_⟩
                · rw [hlen]
                  simp only [foldl_add_transaction_accounts]
                  simp [FinancialData.add_account]
                  omega
                · rw [htr, foldl_add_transaction_transactions]
                  simp [FinancialData.add_account, List.append_assoc]
                · rw [List.flatMap_cons]
                  exact List.rel_append hfa1 hfa2

/-! Bounds enforced by the numeric parsers of the importer. -/

theorem digitVal_le_of_isDigit {c : Char} (h : c.isDigit = true) : digitVal c ≤ 9 := by
  simp only [Char.isDigit, Bool.and_eq_true, decide_eq_true_eq] at h
  obtain ⟨h1, h2⟩ := h
  have g2 : c.val.toNat ≤ 57 := by
    have h3 := BitVec.le_def.mp (UInt32.le_def.mp h2)
    exact h3
  rw [digitVal, Char.toNat]
  omega

theorem foldl_digit_bound (s : Str) : ∀ acc : Nat, allDigits s = true →
    s.foldl (fun acc c => acc * 10 + digitVal c) acc < (acc + 1) * 10 ^ s.length := by
  induction s with
  | nil =>
    intro acc h
    simp
  | cons c cs ih =>
    intro acc h
    simp only [allDigits, List.all_cons, Bool.and_eq_true] at h
    rw [List.foldl_cons, List.length_cons]
    have hd : digitVal c ≤ 9 := digitVal_le_of_isDigit h.1
    have hrec := ih (acc * 10 + digitVal c) h.2
    have hexp : (acc + 1) * 10 ^ (cs.length + 1) = ((acc + 1) * 10) * 10 ^ cs.length := by
      ring
    rw [hexp]
    exact lt_of_lt_of_le hrec (Nat.mul_le_mul_right _ (by omega))

theorem natFromDigitChars_lt (s : Str) (h : allDigits s = true) :
    natFromDigitChars s < 10 ^ s.length := by
  have h2 := foldl_digit_bound s 0 h
  simpa [natFromDigitChars] using h2

theorem numField_le {maxW : Nat} {s : Str} {n : Nat} (h : numField maxW s = some n) :
    n < 10 ^ maxW := by
  rw [numField] at h
  split at h
  · rename_i hcond
    obtain ⟨hne, hlen, hdig⟩ := hcond
    cases h
    calc natFromDigitChars s < 10 ^ s.length := natFromDigitChars_lt s hdig
      _ ≤ 10 ^ maxW := Nat.pow_le_pow_right (by norm_num) hlen
  · cases h

theorem mkMidnight_valid {y : Int} {m d : Nat} {t : DateTime}
    (h : mkMidnight y m d = some t) : t = ⟨y, m, d, 0⟩ ∧ validYMD y m d = true := by
  rw [mkMidnight] at h
  split at h
  · rename_i hv
    cases h
    exact ⟨rfl, hv⟩
  · cases h

theorem tryMDY4_valid {sep : Char} {s : Str} {t : DateTime} (h : tryMDY4 sep s = some t) :
    validDT t = true ∧ t.secs = 0 := by
  rw [tryMDY4] at h
  split at h
  · rename_i a b c
    split at h
    · rename_i mm dd yy hm hd hy2
      obtain ⟨rfl, hv⟩ := mkMidnight_valid h
      have hyb : yy < 10 ^ 4 := numField_le hy2
      refine ⟨?_, rfl⟩
      rw [validDT]
      simp only [Bool.and_eq_true, decide_eq_true_eq]
      refine ⟨⟨by omega, by omega⟩, hv⟩
    · cases h
  · cases h

theorem tryMDY2_valid {sep : Char} {s : Str} {t : DateTime} (h : tryMDY2 sep s = some t) :
    validDT t = true ∧ t.secs = 0 := by
  rw [tryMDY2] at h
  split at h
  · rename_i a b c
    split at h
    · rename_i mm dd yy hm hd hy2
      obtain ⟨rfl, hv⟩ := mkMidnight_valid h
      have hyb : yy < 10 ^ 2 := numField_le hy2
      refine ⟨?_, rfl⟩
      rw [validDT]
      simp only [Bool.and_eq_true, decide_eq_true_eq]
      refine ⟨⟨?_, ?_⟩, hv⟩
      · split <;> omega
      · split <;> omega
    · cases h
  · cases h

theorem tryYMD_valid {sep : Char} {s : Str} {t : DateTime} (h : tryYMD sep s = some t) :
    validDT t = true ∧ t.secs = 0 := by
  rw [tryYMD] at h
  split at h
  · rename_i a b c
    split at h
    · rename_i yy mm dd hy2 hm hd
      obtain ⟨rfl, hv⟩ := mkMidnight_valid h
      have hyb : yy < 10 ^ 4 := numField_le hy2
      refine ⟨?_, rfl⟩
      rw [validDT]
      simp only [Bool.and_eq_true, decide_eq_true_eq]
      refine ⟨⟨by omega, by omega⟩, hv⟩
    · cases h
  · cases h

theorem parse_qif_date_valid {s : Str} {t : DateTime} (h : parse_qif_date s = some t) :
    validDT t = true ∧ t.secs = 0 := by
  simp only [parse_qif_date] at h
  rcases h1 : tryMDY4 '/' ((trim s).filter (fun c => c ≠ apoChar)) with _ | t1
  · rw [h1] at h
    simp only [Option.or] at h
    rcases h2 : tryMDY2 '/' ((trim s).filter (fun c => c ≠ apoChar)) with _ | t2
    · rw [h2] at h
      simp only [Option.or] at h
      rcases h3 : tryMDY4 '-' ((trim s).filter (fun c => c ≠ apoChar)) with _ | t3
      · rw [h3] at h
        simp only [Option.or] at h
        rcases h4 : tryMDY2 '-' ((trim s).filter (fun c => c ≠ apoChar)) with _ | t4
        · rw [h4] at h
          simp only [Option.or] at h
          exact tryYMD_valid h
        · rw [h4] at h
          simp only [Option.or] at h
          cases h
          exact tryMDY2_valid h4
      · rw [h3] at h
        simp only [Option.or] at h
        cases h
        exact tryMDY4_valid h3
    · rw [h2] at h
      simp only [Option.or] at h
      cases h
      exact tryMDY2_valid h2
  · rw [h1] at h
    simp only [Option.or] at h
    cases h
    exact tryMDY4_valid h1

theorem fromChars_bounds {s : Str} {d : Dec} (h : Dec.fromChars? s = some d) :
    d.s ≤ 28 ∧ d.m < 2 ^ 96 := by
  simp only [Dec.fromChars?] at h
  split at h
  · cases h
  · rename_i ip fp hsd
    split at h
    · cases h
    · split at h
      · split at h
        · rename_i hcond
          cases h
          exact ⟨hcond.1, hcond.2⟩
        · cases h
      · cases h

/-! Cleanliness of every decoded record: each stored field is cut from a
trimmed newline-free line, each amount passed the capacity checks of the
Decimal parser, and each date passed the calendar checks of the format
chain. -/

/-- Invariant of the transaction field accumulator. -/
def TFClean (f : TxnFields) : Prop :=
  optFieldClean f.payee = true ∧ optFieldClean f.category = true ∧
  optFieldClean f.memo = true ∧ f.amount.s ≤ 28 ∧ f.amount.m < 2 ^ 96 ∧
  (∀ dt, f.date = some dt → validDT dt = true)

theorem txnStep_clean (l : Str) (st st2 : TxnFields) (hl : ¬ '\n' ∈ l)
    (hst : TFClean st) (h : txnStep (trim l) st = .cont st2) : TFClean st2 := by
  obtain ⟨h1, h2, h3, h4, h5, h6⟩ := hst
  rw [txnStep] at h
  split at h
  · cases h
  · split at h
    · split at h
      · rename_i dt hpd
        cases h
        exact ⟨h1, h2, h3, h4, h5, fun dt2 hdt2 => by
          cases hdt2
          exact (parse_qif_date_valid hpd).1⟩
      · cases h
    · split at h
      · split at h
        · rename_i a hpa
          cases h
          have hb := fromChars_bounds hpa
          exact ⟨h1, h2, h3, hb.1, hb.2, h6⟩
        · cases h
      · split at h
        · cases h
          exact ⟨fieldClean_trim_tail l hl, h2, h3, h4, h5, h6⟩
        · split at h
          · cases h
            exact ⟨h1, fieldClean_trim_tail l hl, h3, h4, h5, h6⟩
          · split at h
            · cases h
              exact ⟨h1, h2, fieldClean_trim_tail l hl, h4, h5, h6⟩
            · split at h
              · cases h
                exact ⟨h1, h2, h3, h4, h5, h6⟩
              · cases h
                exact ⟨h1, h2, h3, h4, h5, h6⟩

theorem txnFieldsLoop_clean (ls : List Str) :
    ∀ st, (∀ l ∈ ls, ¬ '\n' ∈ l) → TFClean st →
      ∀ f rest, txnFieldsLoop ls st = (.ok f, rest) → TFClean f := by
  induction ls with
  | nil =>
    intro st hns hst f rest h
    simp only [txnFieldsLoop] at h
    cases h
    exact hst
  | cons l rest0 ih =>
    intro st hns hst f rest h
    simp only [txnFieldsLoop] at h
    cases htst : txnStep (trim l) st with
    | done =>
      rw [htst] at h
      cases h
      exact hst
    | fail e =>
      rw [htst] at h
      simp at h
    | cont st2 =>
      rw [htst] at h
      exact ih st2 (fun x hx => hns x (by simp [hx]))
        (txnStep_clean l st st2 (hns l (by simp)) hst htst) f rest h

theorem parse_single_clean (now : DateTime) (hnow : validDT now = true) (id aid : Nat)
    (ls : List Str) (hns : ∀ l ∈ ls, ¬ '\n' ∈ l) (t : Transaction) (rest : List Str)
    (h : parse_single_transaction now id aid ls = (.ok t, rest)) :
    TxnClean t = true ∧ t.account_id = aid ∧ t.id = id := by
  rw [parse_single_transaction] at h
  rcases hf : txnFieldsLoop ls TxnFields.start with ⟨res, rest0⟩
  rw [hf] at h
  cases res with
  | error e => simp at h
  | ok f =>
    simp only at h
    have hfc : TFClean f := txnFieldsLoop_clean ls TxnFields.start hns
      ⟨rfl, rfl, rfl, by norm_num [TxnFields.start, Dec.zero],
       by norm_num [TxnFields.start, Dec.zero], fun dt hdt => by cases hdt⟩
      f rest0 hf
    obtain ⟨hp, hcat, hmemo, hs, hm, hdate⟩ := hfc
    have hfst := congrArg Prod.fst h
    simp only at hfst
    have ht := Except.ok.inj hfst
    subst ht
    refine ⟨?_, rfl, rfl⟩
    rw [TxnClean]
    simp only [Transaction.new, Bool.and_eq_true, Bool.or_eq_true, beq_iff_eq,
      bne_iff_ne, decide_eq_true_eq]
    refine ⟨⟨⟨⟨⟨⟨⟨hp, hcat⟩, hmemo⟩, rfl⟩, hs⟩, hm⟩, ?_⟩, ?_⟩
    · by_cases hnn : f.amount.isNonneg = true
      · rw [if_pos hnn]
        exact Or.inl rfl
      · rw [if_neg hnn]
        refine Or.inr ⟨rfl, ?_⟩
        rw [Dec.isNonneg] at hnn
        simp only [Bool.or_eq_true, Bool.not_eq_true', beq_iff_eq] at hnn
        intro hm0
        exact hnn (Or.inr hm0)
    · rcases hfd : f.date with _ | dt
      · simpa [hfd] using hnow
      · simpa [hfd] using hdate dt hfd

/-- Invariant of the account field accumulator. -/
def AFClean (st : AccFields) : Prop :=
  fieldClean st.name = true ∧ (∀ s, st.desc = some s → fieldClean s = true)

theorem accStep_clean (l : Str) (st st2 : AccFields) (hl : ¬ '\n' ∈ l)
    (hst : AFClean st) (h : accStep (trim l) st = .cont st2) : AFClean st2 := by
  obtain ⟨h1, h2⟩ := hst
  rw [accStep] at h
  split at h
  · cases h
    exact ⟨fieldClean_trim_tail l hl, h2⟩
  · split at h
    · cases h
      exact ⟨h1, h2⟩
    · split at h
      · cases h
        exact ⟨h1, fun s hs => by
          cases hs
          exact fieldClean_trim_tail l hl⟩
      · split at h
        · cases h
        · cases h
          exact ⟨h1, h2⟩

theorem accountFieldsLoop_clean (ls : List Str) :
    ∀ st, (∀ l ∈ ls, ¬ '\n' ∈ l) → AFClean st →
      AFClean (accountFieldsLoop ls st).1 := by
  induction ls with
  | nil => intro st hns hst; exact hst
  | cons l rest ih =>
    intro st hns hst
    simp only [accountFieldsLoop]
    split
    · exact hst
    · cases hstp : accStep (trim l) st with
      | done => exact hst
      | cont st2 =>
        exact ih st2 (fun x hx => hns x (by simp [hx]))
          (accStep_clean l st st2 (hns l (by simp)) hst hstp)

theorem parse_account_section_clean (now : DateTime) (id : Nat) (ls : List Str)
    (hns : ∀ l ∈ ls, ¬ '\n' ∈ l) :
    AccClean (parse_account_section now id ls).1 = true ∧
      (parse_account_section now id ls).1.id = id := by
  have hloop := accountFieldsLoop_clean ls
    ⟨"Unknown Account".data, .Other ("Unknown".data), none⟩ hns
    ⟨by decide, fun s hs => by cases hs⟩
  obtain ⟨h1, h2⟩ := hloop
  refine ⟨?_, rfl⟩
  rw [AccClean]
  simp only [Account.new, Bool.and_eq_true]
  refine ⟨h1, ?_⟩
  rcases hd : (accountFieldsLoop ls
      ⟨"Unknown Account".data, .Other ("Unknown".data), none⟩).1.desc with _ | s
  · simp [parse_account_section, optFieldClean, hd]
  · simp only [parse_account_section, optFieldClean, hd]
    exact h2 s hd

theorem parse_transaction_section_props (now : DateTime) (hnow : validDT now = true)
    (aid : Nat) :
    ∀ (fuel : Nat) (ls : List Str) (nid : Nat), (∀ l ∈ ls, ¬ '\n' ∈ l) →
      (∀ t ∈ (parse_transaction_section now aid fuel ls nid).1,
        TxnClean t = true ∧ t.account_id = aid) ∧
      nid ≤ (parse_transaction_section now aid fuel ls nid).2.2 := by
  intro fuel
  induction fuel with
  | zero =>
    intro ls nid hns
    cases ls <;> simp [parse_transaction_section]
  | succ fuel ih =>
    intro ls nid hns
    cases ls with
    | nil => simp [parse_transaction_section]
    | cons l rest =>
      rw [parse_transaction_section]
      split
      · simp
      · split
        · rename_i hg t rest2 h
          have hsfx : rest2 <:+ l :: rest := by
            have h2 := parse_single_rest_suffix now nid aid (l :: rest)
            rw [h] at h2
            exact h2
          have hns2 : ∀ x ∈ rest2, ¬ '\n' ∈ x := fun x hx => hns x (hsfx.subset hx)
          obtain ⟨ihm, ihn⟩ := ih rest2 (nid + 1) hns2
          constructor
          · intro x hx
            rcases List.mem_cons.mp hx with rfl | hx
            · obtain ⟨hc, ha, _⟩ := parse_single_clean now hnow nid aid (l :: rest) hns x rest2 h
              exact ⟨hc, ha⟩
            · exact ihm x hx
          · simp only
            omega
        · rename_i hg e rest2 h
          have hsfx : rest2 <:+ l :: rest := by
            have h2 := parse_single_rest_suffix now nid aid (l :: rest)
            rw [h] at h2
            exact h2
          have hns2 : ∀ x ∈ rest2.tail, ¬ '\n' ∈ x :=
            fun x hx => hns x (hsfx.subset ((List.tail_suffix rest2).subset hx))
          exact ih rest2.tail nid hns2

/-! The grouping invariant: the decoded transactions are exactly the
concatenation, in account order, of each account's own transactions.  This
holds because an account sentinel always opens a fresh account that becomes
the one current account, so each account's sections are contiguous. -/

theorem grouping_new_account (A : List Account) (T : List Transaction) (b : Account)
    (hfresh : ∀ t ∈ T, ¬ t.account_id = b.id)
    (hE : T = A.flatMap (fun a => T.filter (fun t => t.account_id == a.id))) :
    T = (A ++ [b]).flatMap (fun a => T.filter (fun t => t.account_id == a.id)) := by
  rw [List.flatMap_append]
  have hnil : T.filter (fun t => t.account_id == b.id) = [] :=
    List.filter_eq_nil_iff.mpr (fun t ht => by simpa using hfresh t ht)
  simp only [List.flatMap_cons, List.flatMap_nil, hnil, List.append_nil]
  exact hE

theorem grouping_append (A : List Account) (T us : List Transaction) (c : Account)
    (hlast : A.getLast? = some c)
    (hnodup : (A.map Account.id).Nodup)
    (hE : T = A.flatMap (fun a => T.filter (fun t => t.account_id == a.id)))
    (hus : ∀ u ∈ us, u.account_id = c.id) :
    T ++ us = A.flatMap (fun a => (T ++ us).filter (fun t => t.account_id == a.id)) := by
  obtain ⟨A0, hA0⟩ : ∃ A0, A0 ++ [c] = A :=
    ⟨A.dropLast, List.dropLast_append_getLast? c hlast⟩
  subst hA0
  rw [List.map_append, List.nodup_append] at hnodup
  have hid : ∀ a ∈ A0, ¬ a.id = c.id := by
    intro a ha hgeq
    have hdis := hnodup.2.2 (List.mem_map.mpr ⟨a, ha, rfl⟩)
    rw [hgeq] at hdis
    exact hdis (by simp)
  have hfu : ∀ a ∈ A0, us.filter (fun t => t.account_id == a.id) = [] := by
    intro a ha
    refine List.filter_eq_nil_iff.mpr (fun u hu hb => ?_)
    rw [beq_iff_eq, hus u hu] at hb
    exact hid a ha hb.symm
  have hfc : us.filter (fun t => t.account_id == c.id) = us :=
    List.filter_eq_self.mpr (fun u hu => by simp [hus u hu])
  rw [List.flatMap_append]
  simp only [List.flatMap_cons, List.flatMap_nil, List.append_nil]
  rw [List.filter_append, hfc]
  have hA0map : A0.flatMap (fun a => (T ++ us).filter (fun t => t.account_id == a.id)) =
      A0.flatMap (fun a => T.filter (fun t => t.account_id == a.id)) :=
    List.flatMap_congr (fun a ha => by
      rw [List.filter_append, hfu a ha, List.append_nil])
  rw [hA0map, ← List.append_assoc]
  rw [List.flatMap_append] at hE
  simp only [List.flatMap_cons, List.flatMap_nil, List.append_nil] at hE
  rw [← hE]

/-- The running invariant of the document scanner. -/
def DocInv (st : QifState) : Prop :=
  (∀ a ∈ st.data.accounts, AccClean a = true ∧ a.id < st.nextId) ∧
  (st.data.accounts.map Account.id).Nodup ∧
  (∀ t ∈ st.data.transactions, TxnClean t = true ∧ t.account_id < st.nextId) ∧
  st.current = st.data.accounts.getLast? ∧
  st.data.transactions = st.data.accounts.flatMap
    (fun a => st.data.transactions.filter (fun t => t.account_id == a.id))

theorem DocInv_out {st : QifState} (hinv : DocInv st) :
    (∀ a ∈ st.data.accounts, AccClean a = true) ∧
    (∀ t ∈ st.data.transactions, TxnClean t = true) ∧
    st.data.transactions = st.data.accounts.flatMap
      (fun a => st.data.transactions.filter (fun t => t.account_id == a.id)) :=
  ⟨fun a ha => (hinv.1 a ha).1, fun t ht => (hinv.2.2.1 t ht).1, hinv.2.2.2.2⟩

theorem qifLines_inv (now : DateTime) (hnow : validDT now = true) :
    ∀ (fuel : Nat) (ls : List Str) (st : QifState),
      (∀ l ∈ ls, ¬ '\n' ∈ l) → DocInv st →
      ∀ D, qifLines now fuel ls st = .ok D →
        (∀ a ∈ D.accounts, AccClean a = true) ∧
        (∀ t ∈ D.transactions, TxnClean t = true) ∧
        D.transactions = D.accounts.flatMap
          (fun a => D.transactions.filter (fun t => t.account_id == a.id)) := by
  intro fuel
  induction fuel with
  | zero =>
    intro ls st hns hinv D hD
    cases ls with
    | nil =>
      rw [qifLines] at hD
      cases hD
      exact DocInv_out hinv
    | cons l rest =>
      rw [qifLines] at hD
      cases hD
      exact DocInv_out hinv
  | succ fuel ih =>
    intro ls st hns hinv D hD
    cases ls with
    | nil =>
      rw [qifLines] at hD
      cases hD
      exact DocInv_out hinv
    | cons l rest =>
      obtain ⟨i1, i2, i3, i4, i5⟩ := hinv
      rw [qifLines] at hD
      split at hD
      · -- a fresh account is opened
        have hnsr : ∀ x ∈ rest, ¬ '\n' ∈ x := fun x hx => hns x (by simp [hx])
        obtain ⟨hbC, hbId⟩ := parse_account_section_clean now st.nextId rest hnsr
        refine ih _ _ ?_ ?_ D hD
        · intro x hx
          exact hnsr x ((parse_account_section_rest_suffix now st.nextId rest).subset hx)
        · refine ⟨?_, ?_, ?_, ?_, ?_⟩
          · intro a ha
            simp only [FinancialData.add_account, List.mem_append, List.mem_singleton] at ha
            rcases ha with ha | rfl
            · obtain ⟨hc, hlt⟩ := i1 a ha
              exact ⟨hc, by dsimp only; omega⟩
            · exact ⟨hbC, by dsimp only; omega⟩
          · simp only [FinancialData.add_account, List.map_append, List.map_singleton]
            rw [List.nodup_append]
            refine ⟨i2, List.nodup_singleton _, ?_⟩
            intro x hx1 hx2
            obtain ⟨a, ha, rfl⟩ := List.mem_map.mp hx1
            rw [List.mem_singleton] at hx2
            have := (i1 a ha).2
            omega
          · intro t ht
            simp only [FinancialData.add_account] at ht
            obtain ⟨hc, hlt⟩ := i3 t ht
            exact ⟨hc, by dsimp only; omega⟩
          · simp only [FinancialData.add_account]
            rw [List.getLast?_concat]
          · simp only [FinancialData.add_account]
            refine grouping_new_account _ _ _ ?_ i5
            intro t ht
            have := (i3 t ht).2
            omega
      · split at hD
        · split at hD
          · cases hD
          · rename_i a2 hcur
            have hnsr : ∀ x ∈ rest, ¬ '\n' ∈ x := fun x hx => hns x (by simp [hx])
            obtain ⟨hus, hmono⟩ :=
              parse_transaction_section_props now hnow a2.id fuel rest st.nextId hnsr
            have hlast : st.data.accounts.getLast? = some a2 := by
              rw [← i4, hcur]
            have ha2mem : a2 ∈ st.data.accounts := List.mem_of_getLast?_eq_some hlast
            have ha2lt : a2.id < st.nextId := (i1 a2 ha2mem).2
            refine ih _ _ ?_ ?_ D hD
            · intro x hx
              exact hnsr x
                ((parse_transaction_section_rest_suffix now a2.id fuel rest st.nextId).subset hx)
            · refine ⟨?_, ?_, ?_, ?_, ?_⟩
              · intro a ha
                rw [foldl_add_transaction_accounts] at ha
                obtain ⟨hc, hlt⟩ := i1 a ha
                exact ⟨hc, by dsimp only; omega⟩
              · rw [foldl_add_transaction_accounts]
                exact i2
              · intro t ht
                rw [foldl_add_transaction_transactions] at ht
                rcases List.mem_append.mp ht with ht | ht
                · obtain ⟨hc, hlt⟩ := i3 t ht
                  exact ⟨hc, by dsimp only; omega⟩
                · obtain ⟨hc, hid⟩ := hus t ht
                  exact ⟨hc, by dsimp only; omega⟩
              · rw [foldl_add_transaction_accounts, hcur]
                exact hlast.symm
              · rw [foldl_add_transaction_accounts, foldl_add_transaction_transactions]
                refine grouping_append _ _ _ a2 hlast i2 i5 ?_
                intro u hu
                exact (hus u hu).2
        · exact ih _ _ (fun x hx => hns x (by simp [hx])) ⟨i1, i2, i3, i4, i5⟩ D hD

/-! Cleanliness of the exported lines: every line the exporter emits is free
of newlines and carries no trailing whitespace, so the line splitter of the
importer recovers the exported line list exactly. -/

theorem cons_no_ws (tag : Char) (p : Str) (htag : isWSChar tag = false)
    (hp : ∀ c ∈ p, isWSChar c = false) : ∀ c ∈ tag :: p, isWSChar c = false := by
  intro c hc
  rcases List.mem_cons.mp hc with rfl | hc
  · exact htag
  · exact hp c hc

theorem no_ws_line_clean (l : Str) (h : ∀ c ∈ l, isWSChar c = false) :
    ¬ '\n' ∈ l ∧ trailClean l = true := by
  refine ⟨fun hc => ?_, trailClean_of_no_ws l h⟩
  have h2 := h _ hc
  simp [isWSChar] at h2

theorem fieldClean_parts (s : Str) (h : fieldClean s = true) :
    ¬ '\n' ∈ s ∧ trailClean s = true := by
  rw [fieldClean, Bool.and_eq_true] at h
  obtain ⟨h1, h2⟩ := h
  refine ⟨?_, h2⟩
  simpa using h1

theorem tag_line_clean (tag : Char) (p : Str) (htag : isWSChar tag = false)
    (hp : fieldClean p = true) : ¬ '\n' ∈ tag :: p ∧ trailClean (tag :: p) = true := by
  obtain ⟨h1, h2⟩ := fieldClean_parts p hp
  refine ⟨fun hc => ?_, trailClean_cons tag p htag h2⟩
  rcases List.mem_cons.mp hc with heq | hc2
  · exact ne_nl_of_not_ws htag heq.symm
  · exact h1 hc2

theorem export_transaction_lines_clean (t : Transaction) (hc : TxnClean t = true) :
    ∀ l ∈ export_transaction_lines t, ¬ '\n' ∈ l ∧ trailClean l = true := by
  obtain ⟨hpy, hct, hmo, hsgn, hsb, hmb, hk, hy0, hy, hv⟩ := TxnClean_parts t hc
  intro l hl
  rw [export_transaction_lines] at hl
  rcases List.mem_cons.mp hl with rfl | hl
  · exact no_ws_line_clean _ (cons_no_ws 'D' _ (by decide) (formatMDY_no_ws t.date hy0))
  rcases List.mem_cons.mp hl with rfl | hl
  · exact no_ws_line_clean _ (cons_no_ws 'T' _ (by decide) (render_no_ws _))
  rcases List.mem_append.mp hl with h1 | h1
  swap
  · rw [List.mem_singleton] at h1
    subst h1
    exact ⟨by decide, by decide⟩
  rcases List.mem_append.mp h1 with h2 | h2
  swap
  · by_cases hcl : t.cleared
    · rw [if_pos hcl] at h2
      rw [List.mem_singleton] at h2
      subst h2
      exact ⟨by decide, by decide⟩
    · rw [if_neg hcl] at h2
      simp at h2
  rcases List.mem_append.mp h2 with h3 | h3
  swap
  · rcases hm2 : t.memo with _ | m
    · rw [hm2] at h3
      simp at h3
    · rw [hm2] at h3
      rw [List.mem_singleton] at h3
      subst h3
      rw [hm2] at hmo
      exact tag_line_clean 'M' m (by decide) (by simpa [optFieldClean] using hmo)
  rcases List.mem_append.mp h3 with h4 | h4
  swap
  · rcases hc2 : t.category with _ | c
    · rw [hc2] at h4
      simp at h4
    · rw [hc2] at h4
      rw [List.mem_singleton] at h4
      subst h4
      rw [hc2] at hct
      exact tag_line_clean 'L' c (by decide) (by simpa [optFieldClean] using hct)
  · rcases hp2 : t.payee with _ | p
    · rw [hp2] at h4
      simp at h4
    · rw [hp2] at h4
      rw [List.mem_singleton] at h4
      subst h4
      rw [hp2] at hpy
      exact tag_line_clean 'P' p (by decide) (by simpa [optFieldClean] using hpy)

theorem export_account_lines_clean (a : Account) (ha : AccClean a = true) :
    ∀ l ∈ export_account_lines a, ¬ '\n' ∈ l ∧ trailClean l = true := by
  rw [AccClean, Bool.and_eq_true] at ha
  obtain ⟨hn, hi⟩ := ha
  intro l hl
  rw [export_account_lines] at hl
  rcases List.mem_append.mp hl with h1 | h1
  swap
  · rw [List.mem_singleton] at h1
    subst h1
    exact ⟨by decide, by decide⟩
  rcases List.mem_append.mp h1 with h2 | h2
  · rcases List.mem_cons.mp h2 with rfl | h3
    · exact ⟨by decide, by decide⟩
    rcases List.mem_cons.mp h3 with rfl | h4
    · exact tag_line_clean 'N' a.name (by decide) hn
    rcases List.mem_cons.mp h4 with rfl | h5
    · exact no_ws_line_clean _ (cons_no_ws 'T' _ (by decide) (account_type_to_qif_no_ws _))
    · simp at h5
  · rcases hin : a.institution with _ | i
    · rw [hin] at h2
      simp at h2
    · rw [hin] at h2
      rw [List.mem_singleton] at h2
      subst h2
      rw [hin] at hi
      exact tag_line_clean 'D' i (by decide) (by simpa [optFieldClean] using hi)

theorem export_lines_clean (D : FinancialData)
    (hA : ∀ a ∈ D.accounts, AccClean a = true)
    (hT : ∀ t ∈ D.transactions, TxnClean t = true) :
    ∀ l ∈ export_lines D, ¬ '\n' ∈ l ∧ trailClean l = true := by
  intro l hl
  rw [export_lines_eq] at hl
  obtain ⟨a, ha, hla⟩ := List.mem_flatMap.mp hl
  simp only [accountBlock] at hla
  rcases List.mem_append.mp hla with h1 | h1
  · rcases List.mem_append.mp h1 with h2 | h2
    · exact export_account_lines_clean a (hA a ha) l h2
    · rw [List.mem_singleton] at h2
      subst h2
      exact ⟨by simp, rfl⟩
  · cases hemp : (D.get_account_transactions a.id).isEmpty with
    | true =>
      rw [hemp, if_pos rfl] at h1
      simp at h1
    | false =>
      rw [hemp, if_neg Bool.false_ne_true] at h1
      rcases List.mem_append.mp h1 with h2 | h2
      · rw [export_transactions_lines] at h2
        rcases List.mem_cons.mp h2 with rfl | h2
        · exact no_ws_line_clean _ (type_line_no_ws a.account_type)
        · obtain ⟨u, hu, hlu⟩ := List.mem_flatMap.mp h2
          have hu2 : u ∈ D.transactions.filter (fun x => x.account_id == a.id) := hu
          exact export_transaction_lines_clean u
            (hT u (List.mem_of_mem_filter hu2)) l hlu
      · rw [List.mem_singleton] at h2
        subst h2
        exact ⟨by simp, rfl⟩

theorem linesOf_export (D : FinancialData)
    (hA : ∀ a ∈ D.accounts, AccClean a = true)
    (hT : ∀ t ∈ D.transactions, TxnClean t = true) :
    linesOf (export_to_string D) = export_lines D := by
  rw [export_to_string]
  exact linesOf_joinNL _ (export_lines_clean D hA hT)

/-! The round trip assembled. -/

theorem parse_export (now2 : DateTime) (D : FinancialData)
    (hA : ∀ a ∈ D.accounts, AccClean a = true)
    (hT : ∀ t ∈ D.transactions, TxnClean t = true)
    (hE : D.transactions = D.accounts.flatMap
      (fun a => D.transactions.filter (fun t => t.account_id == a.id))) :
    ∃ D2, parse_qif_content now2 (export_to_string D) = .ok D2 ∧
      D2.accounts.length = D.accounts.length ∧
      List.Forall₂ TxMatch D.transactions D2.transactions := by
  obtain ⟨D2, us, hq, hlen, htr, hfa⟩ := qifLines_export_blocks now2 D hT
    (D.accounts.flatMap (accountBlock D)).length D.accounts
    ⟨FinancialData.new, none, [], 0⟩ hA (le_refl _)
  refine ⟨D2, ?_, ?_, ?_⟩
  · rw [parse_qif_content, linesOf_export D hA hT, export_lines_eq]
    exact hq
  · rw [hlen]
    simp [FinancialData.new]
  · have hus : D2.transactions = us := by
      rw [htr]
      simp [FinancialData.new]
    rw [hus, hE]
    exact hfa

theorem parse_qif_content_inv (now : DateTime) (hnow : validDT now = true)
    (input : Str) (D : FinancialData) (hD : parse_qif_content now input = .ok D) :
    (∀ a ∈ D.accounts, AccClean a = true) ∧
    (∀ t ∈ D.transactions, TxnClean t = true) ∧
    D.transactions = D.accounts.flatMap
      (fun a => D.transactions.filter (fun t => t.account_id == a.id)) := by
  rw [parse_qif_content] at hD
  refine qifLines_inv now hnow _ _ _ (linesOf_no_nl input) ?_ D hD
  refine ⟨?_, ?_, ?_, rfl, rfl⟩
  · intro a ha
    simp [FinancialData.new] at ha
  · simp [FinancialData.new]
  · intro t ht
    simp [FinancialData.new] at ht

/-- Claim C1: round-trip law — for every document the decoder produces from
well-formed input under a representable wall-clock date, re-decoding the
exporter output yields a document with the same account count, the same
transaction count, and, transaction by transaction in order, the same
amount magnitude, kind, payee, category, memo and cleared flag, with dates
agreeing on year, month and day. -/
theorem C1_round_trip (now now2 : DateTime) (input : Str) (D : FinancialData)
    (hnow : validDT now = true)
    (hD : parse_qif_content now input = .ok D) :
    ∃ D2, parse_qif_content now2 (export_to_string D) = .ok D2 ∧
      D2.accounts.length = D.accounts.length ∧
      D2.transactions.length = D.transactions.length ∧
      List.Forall₂ TxMatch D.transactions D2.transactions := by
  obtain ⟨hA, hT, hE⟩ := parse_qif_content_inv now hnow input D hD
  obtain ⟨D2, hok, hlen, hfa⟩ := parse_export now2 D hA hT hE
  exact ⟨D2, hok, hlen, (List.Forall₂.length_eq hfa).symm, hfa⟩

/-- Concrete input for the C1 witness: one account with a cleared debit
carrying payee, category and memo, and a bare credit. -/
def c1input : Str :=
  ("!Account\nNChecking\nTBank\n^\n!Type:Bank\nD01/15/2024\nT-42.50\nPStore\nLFood\nMWeekly\nC*\n^\nD02/20/2024\nT100.00\n^\n").data

def c1doc : FinancialData :=
  match parse_qif_content epoch c1input with
  | .ok d => d
  | .error _ => FinancialData.new

/-- Witness for C1: the concrete input decodes, and its export re-decodes to
a document matching it account for account and transaction for
transaction. -/
theorem C1_round_trip_witness :
    validDT epoch = true ∧ parse_qif_content epoch c1input = .ok c1doc ∧
    ∃ D2, parse_qif_content epoch (export_to_string c1doc) = .ok D2 ∧
      D2.accounts.length = c1doc.accounts.length ∧
      D2.transactions.length = c1doc.transactions.length ∧
      List.Forall₂ TxMatch c1doc.transactions D2.transactions :=
  ⟨by decide, rfl, C1_round_trip epoch epoch c1input c1doc (by decide) rfl⟩

end FinAgent
